import Mathlib

/-!
# Kanki iRODS client: the download worker (`rodsdownloadthread.cpp`)

A shallow embedding of `RodsDownloadThread` — `run`, `makeCollObjList`,
`downloadFile` and `transferFileStream` — followed by theorems about it.

Conventions of the embedding.

* `std::string` paths are `List Char`; the status texts of the progress
  display are the constructors of `StatusStr`, one per text template.
* The remote namespace seen through `RodsConnection::readColl` is a finite
  tree (`RodsNode`): every node carries its entry, and, for a collection, the
  status `readColl` returns for it together with the children it lists.
* Calls on external collaborators (connection, thread pool, streams, Qt
  signals) are recorded, in program order, as a list of `Event`s.
* The `double` arithmetic of the transfer statistics is IEEE 754 binary64 with
  round to nearest, ties to even (`roundDouble`); the speed, which depends on
  the wall clock, is not modelled.
* Constants that come from headers outside the translated sources
  (`__KANKI_BUFSIZE_MAX`, `__KANKI_BUFSIZE_INIT`, the iRODS error codes) are
  fields of `Consts`.
-/

namespace Kanki

/-! ## Data model -/

/-- The object type tag of an entry (`objType_t`): the two tags the download
worker tests for, and one standing for every other tag. -/
inductive ObjType where
  | UNKNOWN_OBJ_T
  | DATA_OBJ_T
  | COLL_OBJ_T
  deriving DecidableEq, Repr

open ObjType

/-- One remote entry (`Kanki::RodsObjEntry`).  The accessors
`getObjectName`, `getObjectFullPath` and `getObjectBasePath` are defined
outside the translated sources; their results are fields here. -/
structure RodsObjEntry where
  objType : ObjType
  collPath : List Char
  objSize : Int
  getObjectName : List Char
  getObjectFullPath : List Char
  getObjectBasePath : List Char
  deriving DecidableEq, Repr

/-- A node of the remote namespace: the entry, the status `readColl` returns
when asked to list it, and the entries that listing yields (with their own
subtrees).  `makeCollObjList` looks at `status` and `children` only for a
collection. -/
inductive RodsNode where
  | node (entry : RodsObjEntry) (status : Int) (children : List RodsNode)

/-- The entry of a node. -/
def RodsNode.entry : RodsNode → RodsObjEntry
  | .node e _ _ => e

/-- The status texts shown in the progress display, one constructor per
text template of the source. -/
inductive StatusStr where
  /-- The text "Initializing...". -/
  | initializing
  /-- The text "Building a list of objects (n)...". -/
  | buildingList (n : Nat)
  /-- The text "Downloading " followed by the object name. -/
  | downloading (name : List Char)
  /-- The text "Creating directory " followed by the directory name. -/
  | creatingDirectory (dirName : List Char)
  /-- The text "Downloading file: " followed by the object name. -/
  | downloadingFile (name : List Char)
  /-- The text "Transferring...". -/
  | transferring
  /-- The text "Transferring... p% at s MB/s", where p is `(int)percentage`
  (`none` where that conversion is undefined); the speed is wall-clock
  dependent and is not recorded. -/
  | transferringAt (percentage : Option Int)
  deriving DecidableEq, Repr

/-- What the worker does to the outside world, in program order: Qt signals
to the user interface and calls on the connection, the thread pool, the
filesystem and the two streams. -/
inductive Event where
  | progressMarquee (text : StatusStr)
  | setupProgressDisplay (text : StatusStr) (value maxValue : Nat)
  | progressUpdate (text : StatusStr) (value : Nat)
  | setupSubProgressDisplay (text : StatusStr) (value maxValue : Nat)
  /-- The signal `subProgressUpdate(statusStr, (int)percentage)`; `none` where
  the conversion to `int` is undefined. -/
  | subProgressUpdate (text : StatusStr) (value : Option Int)
  | reportError (title : String) (detail : List Char) (status : Int)
  | connect (status : Int)
  | login (status : Int)
  | disconnect
  | readColl (collPath : List Char) (status : Int)
  /-- The call `objs->push_back(obj)` of `makeCollObjList`. -/
  | push_back (obj : RodsObjEntry)
  /-- A job handed to the thread pool: `downloadFile` of `obj` to `dstPath`. -/
  | post (obj : RodsObjEntry) (dstPath : List Char) (verify overwrite : Bool)
  /-- The directory step for `dstPath`: `QDir::exists`, and `QDir::mkpath`
  when the answer (`existed`) is no. -/
  | ensureDir (dstPath : List Char) (existed : Bool)
  | join
  | get_connection
  | openRemote (path : List Char) (ok : Bool)
  | openLocal (path : List Char) (ok : Bool)
  | read (count : Nat) (gcount : Nat)
  | write (bytes : List Nat) (ok : Bool)
  | closeLocal
  | closeRemote
  deriving DecidableEq, Repr

/-! ## `makeCollObjList` -/

/-- The state `makeCollObjList` works on: the vector `objs` it appends to and
the events emitted so far. -/
structure Walk where
  objs : List RodsObjEntry
  events : List Event
  deriving DecidableEq, Repr

mutual
/-- The function `RodsDownloadThread::makeCollObjList(obj, objs)`: the status
it returns and the extended state. -/
def makeCollObjList : RodsNode → Walk → Int × Walk
  | .node entry rc children, w =>
    -- we proceed only for collections
    if entry.objType = COLL_OBJ_T then
      -- try to read collection
      let w1 : Walk := { w with events := w.events ++ [Event.readColl entry.collPath rc] }
      if rc ≥ 0 then
        collLoop children rc w1
      else
        (rc, w1)
    else
      (0, w)
/-- The `for` loop of `makeCollObjList` over the listing `curCollObjs`, entered
with the current value of `status`. -/
def collLoop : List RodsNode → Int → Walk → Int × Walk
  | [], status, w => (status, w)
  | curObj :: rest, status, w =>
    -- add object to list and notify ui
    let objs := w.objs ++ [curObj.entry]
    let w1 : Walk :=
      { objs := objs
        events := w.events ++
          [Event.push_back curObj.entry,
           Event.progressMarquee (StatusStr.buildingList objs.length)] }
    -- recurse on collection objects
    if curObj.entry.objType = COLL_OBJ_T then
      let r := makeCollObjList curObj w1
      -- on error, back off recursion
      if r.1 < 0 then r else collLoop rest r.1 r.2
    else
      collLoop rest status w1
end

/-! ## Constants and the outside world -/

/-- Constants defined in headers outside the translated sources: the two
buffer sizes `__KANKI_BUFSIZE_INIT` and `__KANKI_BUFSIZE_MAX`, and the iRODS
error codes the worker returns. -/
structure Consts where
  KANKI_BUFSIZE_INIT : Nat
  KANKI_BUFSIZE_MAX : Nat
  OVERWRITE_WITHOUT_FORCE_FLAG : Int
  SYS_API_INPUT_ERR : Int
  FILE_OPEN_ERR : Int
  FILE_WRITE_ERR : Int
  SYS_NOT_SUPPORTED : Int

/-- When the chunk write running on the `writer` thread takes effect, relative
to the statements of the main thread between the launch of the thread and its
`join`. -/
inductive WriteTiming where
  /-- At once: before the next evaluation of the loop condition. -/
  | atLaunch
  /-- After the next evaluation of the loop condition, before the next
  assignment to `lastRead`. -/
  | afterCheck
  /-- After the next assignment to `lastRead`, before `join` returns. -/
  | atJoin
  deriving DecidableEq, Repr

/-- The local filesystem: regular files with their bytes, and directories. -/
structure Fs where
  files : List Char → Option (List Nat)
  dirs : List Char → Bool

/-- The test `boost::filesystem::exists`: a file or a directory is there. -/
def Fs.pathExists (fs : Fs) (path : List Char) : Bool :=
  (fs.files path).isSome || fs.dirs path

/-- The filesystem with the regular file `path` holding `bytes`. -/
def Fs.setFile (fs : Fs) (path : List Char) (bytes : List Nat) : Fs :=
  { fs with files := fun p => if p = path then some bytes else fs.files p }

/-- The filesystem with the directory `path` present (the parent directories
that `QDir::mkpath` creates on the way are not recorded). -/
def Fs.addDir (fs : Fs) (path : List Char) : Fs :=
  { fs with dirs := fun p => if p = path then true else fs.dirs p }

/-- What the collaborators outside the worker answer. -/
structure World where
  /-- Status of `RodsConnection::connect`. -/
  connect : Int
  /-- Status of `RodsConnection::login`. -/
  login : Int
  /-- Bytes of the remote object at a path; `none` when the `idstream`
  cannot be opened. -/
  remote : List Char → Option (List Nat)
  /-- The checksum the server reports for the object at a path
  (`inStream.checksum()`). -/
  remoteChecksum : List Char → List Char
  /-- Whether `std::ofstream` manages to open a local path for writing. -/
  localOpens : List Char → Bool
  /-- Whether `QDir::mkpath` manages to create a directory. -/
  mkpath : List Char → Bool
  /-- Whether the `k`-th `write` reaching the local stream fails. -/
  writeFails : Nat → Bool
  /-- When the write launched in iteration `i` takes effect. -/
  timing : Nat → WriteTiming

/-! ## `transferFileStream` -/

/-- The `std::istream` being read: the bytes not yet consumed, and whether
`failbit` is set (so that `!inStream` holds).  Read errors of the transport
are not part of the model. -/
structure IStream where
  data : List Nat
  failbit : Bool
  deriving DecidableEq, Repr

/-- The `std::ofstream` being written: the bytes written so far, its two
error bits, and the number of `write` calls that reached the file. -/
structure OStream where
  written : List Nat
  badbit : Bool
  failbit : Bool
  writes : Nat
  deriving DecidableEq, Repr

/-- The conversion `(bool)outStream`. -/
def OStream.ok (o : OStream) : Bool := !(o.badbit || o.failbit)

/-- The call `outStream.write(p, n)` where `bytes` are the `n` bytes at `p`: on
a stream already in error it only sets `failbit`; a failing write sets
`badbit` and stores nothing. -/
def OStream.write (fails : Nat → Bool) (o : OStream) (bytes : List Nat) : OStream :=
  if o.badbit || o.failbit then { o with failbit := true }
  else if fails o.writes then { o with badbit := true, writes := o.writes + 1 }
  else { o with written := o.written ++ bytes, writes := o.writes + 1 }

/-- The `writer` thread: the value of the pointer `buffer` it captured (which
of the two allocations), when its write takes effect, and whether it has. -/
structure Writer where
  buffer : Bool
  timing : WriteTiming
  done : Bool
  deriving DecidableEq, Repr

/-- The local variables of `transferFileStream`, the two streams and the
contents of the two allocations (`false`: first `malloc`, `true`: second). -/
structure Xfer where
  inStream : IStream
  outStream : OStream
  mem : Bool → List Nat
  buffer : Bool
  buffer2 : Bool
  status : Int
  lastRead : Nat
  totalRead : Nat
  writer : Option Writer
  /-- Number of completed loop iterations. -/
  iter : Nat
  /-- The value of `percentage` computed in each iteration, oldest first. -/
  percentages : List (Option Int)
  events : List Event

/-! ### The `double` arithmetic of the statistics -/

/-- The number of halvings that bring `n` below 2, computed with `fuel`
steps: the integer part of the binary logarithm of `n` when `n ≤ fuel`. -/
def floorLog2 : Nat → Nat → Nat
  | 0, _ => 0
  | fuel + 1, n => if n < 2 then 0 else floorLog2 fuel (n / 2) + 1

/-- The exponent `E` with `2 ^ E ≤ a / b < 2 ^ (E + 1)`, for positive `a` and
`b`. -/
def binade (a b : Nat) : Int :=
  let l : Int := (floorLog2 a a : Int) - (floorLog2 b b : Int)
  if b * 2 ^ l.toNat ≤ a * 2 ^ (-l).toNat then l else l - 1

/-- The integer nearest to `n / d`, the even one of the two when `n / d` lies
halfway between two integers. -/
def roundHalfEven (n d : Nat) : Nat :=
  let q := n / d
  let r := n % d
  if 2 * r < d then q
  else if d < 2 * r then q + 1
  else if q % 2 = 0 then q else q + 1

/-- A non-negative finite `double`, as the fraction `num / den`. -/
structure Frac where
  num : Nat
  den : Nat
  deriving DecidableEq, Repr

/-- The rational value of a fraction. -/
def Frac.val (f : Frac) : ℚ := (f.num : ℚ) / (f.den : ℚ)

/-- The `double` nearest to `a / b` (IEEE 754 binary64, round to nearest, ties
to even): `a / b` is scaled by a power of two into the range from `2 ^ 52` to
`2 ^ 53`, rounded to an integer of 53 bits, and scaled back.  The exponent
range of binary64 is not bounded here: for the arguments that arise from
64-bit integers no overflow or underflow occurs. -/
def roundDouble (a b : Nat) : Frac :=
  if a = 0 then ⟨0, 1⟩
  else
    let k : Int := 52 - binade a b
    let m := roundHalfEven (a * 2 ^ k.toNat) (b * 2 ^ (-k).toNat)
    ⟨m * 2 ^ (-k).toNat, 2 ^ k.toNat⟩

/-- The value of the `double` expression `((double)t / (double)s) * 100` for
non-negative `t` and positive `s`: the two conversions, the division and the
multiplication each round to the nearest `double`. -/
def ratioTimes100 (t s : Nat) : Frac :=
  let x := roundDouble t 1
  let y := roundDouble s 1
  let r := roundDouble (x.num * y.den) (x.den * y.num)
  roundDouble (r.num * 100) r.den

/-- The value of the `double` variable `percentage`,
`ceil(((double)totalRead / (double)objSize) * 100)`, for a `totalRead` and an
`objSize` in the range of their 64-bit types.  The result is an integer when
it is finite; it is `none` when it is not (for `objSize = 0` the quotient is
infinite or not a number) and for arguments outside those ranges.  For a
negative `objSize` the product is the negative of the one for `-objSize`, and
its ceiling the negative of a floor. -/
def percentage (totalRead : Nat) (objSize : Int) : Option Int :=
  if objSize = 0 ∨ 2 ^ 63 ≤ totalRead ∨ objSize < -2 ^ 63 ∨ 2 ^ 63 ≤ objSize then none
  else
    let p := ratioTimes100 totalRead objSize.natAbs
    if 0 < objSize then some (-(-(p.num : Int) / (p.den : Int)))
    else some (-((p.num : Int) / (p.den : Int)))

/-- The conversion `(int)percentage`: the value when it fits a 32-bit `int`,
`none` where the conversion is undefined. -/
def castInt : Option Int → Option Int
  | some v => if -2 ^ 31 ≤ v ∧ v < 2 ^ 31 then some v else none
  | none => none

/-- The value `ceil(totalRead * 100 / objSize)` of exact arithmetic (0 for
`objSize = 0`), see `exactPercentage_eq_ceil`. -/
def exactPercentage (totalRead : Nat) (objSize : Int) : Int :=
  -(Int.fdiv (-((totalRead : Int) * 100)) objSize)

/-! ### The loop -/

/-- The body of the `writer` lambda: `outStream.write(buffer, lastRead)` with
the captured pointer and the current value of the shared `lastRead`. -/
def Xfer.runWriter (fails : Nat → Bool) (s : Xfer) (w : Writer) : Xfer :=
  let bytes := (s.mem w.buffer).take s.lastRead
  let out := OStream.write fails s.outStream bytes
  { s with
    outStream := out
    writer := some { w with done := true }
    events := s.events ++ [Event.write bytes (!out.badbit && !out.failbit)] }

/-- Lets the pending write take effect if it is due at the point `now` and has
not run yet. -/
def Xfer.runWriterAt (fails : Nat → Bool) (now : WriteTiming) (s : Xfer) : Xfer :=
  match s.writer with
  | some w => if !w.done && decide (w.timing = now) then s.runWriter fails w else s
  | none => s

/-- Lets the pending write take effect if it has not run yet: `join`. -/
def Xfer.joinWriter (fails : Nat → Bool) (s : Xfer) : Xfer :=
  match s.writer with
  | some w => if !w.done then s.runWriter fails w else s
  | none => s

/-- The statements `inStream.read(buffer, __KANKI_BUFSIZE_MAX)`,
`lastRead = inStream.gcount()` and `totalRead += lastRead`: up to
`__KANKI_BUFSIZE_MAX` bytes go to the allocation `buffer` points to, and a
short read sets `failbit`. -/
def Xfer.readChunk (c : Consts) (s : Xfer) : Xfer :=
  let got := s.inStream.data.take c.KANKI_BUFSIZE_MAX
  { s with
    inStream :=
      { data := s.inStream.data.drop c.KANKI_BUFSIZE_MAX
        failbit := decide (got.length < c.KANKI_BUFSIZE_MAX) }
    mem := fun p => if p = s.buffer then got ++ (s.mem p).drop got.length else s.mem p
    lastRead := got.length
    totalRead := s.totalRead + got.length
    events := s.events ++ [Event.read c.KANKI_BUFSIZE_MAX got.length] }

/-- The branch taken when `badbit` is found set after a `join`:
`status = FILE_WRITE_ERR`, `reportError`, `break`. -/
def Xfer.writeError (c : Consts) (s : Xfer) : Xfer :=
  { s with
    writer := none
    status := c.FILE_WRITE_ERR
    events := s.events ++
      [Event.reportError "Download failed" "Write error".toList c.FILE_WRITE_ERR] }

/-- The rest of the loop body: a new `writer` thread capturing `buffer` is
started, the two buffer pointers are swapped, and the statistics are computed
and signalled. -/
def Xfer.launchAndReport (c : Consts) (w : World) (objSize : Int) (s : Xfer) : Xfer :=
  -- (re)new writer thread and push a lambda function into it
  let s : Xfer :=
    { s with writer := some { buffer := s.buffer, timing := w.timing s.iter, done := false } }
  let s := s.runWriterAt w.writeFails WriteTiming.atLaunch
  -- XOR swap buffer pointers for double buffering
  let s : Xfer := { s with buffer := s.buffer2, buffer2 := s.buffer }
  -- compute and signal statistics to UI
  let pct := percentage s.totalRead objSize
  { s with
    iter := s.iter + 1
    percentages := s.percentages ++ [pct]
    events :=
      if objSize > c.KANKI_BUFSIZE_INIT then
        s.events ++
          [Event.subProgressUpdate (StatusStr.transferringAt (castInt pct)) (castInt pct)]
      else s.events }

/-- The `while (inStream && outStream)` loop of `transferFileStream`; `none`
when `fuel` iterations were not enough to leave it. -/
def transferLoop (c : Consts) (w : World) (objSize : Int) : Nat → Xfer → Option Xfer
  | 0, _ => none
  | fuel + 1, s =>
    if !(!s.inStream.failbit && s.outStream.ok) then some s
    else
      let s := s.runWriterAt w.writeFails WriteTiming.afterCheck
      let s := s.readChunk c
      -- if we had a thread for writing, wait for it
      let s := s.joinWriter w.writeFails
      -- check for write errors
      if s.writer.isSome && s.outStream.badbit then some (s.writeError c)
      else transferLoop c w objSize fuel (s.launchAndReport c w objSize)

/-- The state in which `transferFileStream` enters its loop. -/
def Xfer.init (c : Consts) (inStream : IStream) (outStream : OStream) : Xfer :=
  { inStream := inStream
    outStream := outStream
    mem := fun _ => List.replicate c.KANKI_BUFSIZE_MAX 0
    buffer := false
    buffer2 := true
    status := 0
    lastRead := 0
    totalRead := 0
    writer := none
    iter := 0
    percentages := []
    events := [] }

/-- The function `RodsDownloadThread::transferFileStream(obj, inStream,
outStream)`: the final state, whose `status` is the value returned; `none`
when the loop does not end (which happens only for `__KANKI_BUFSIZE_MAX = 0`,
see `transferFileStream_returns`). -/
def transferFileStream (c : Consts) (w : World) (obj : RodsObjEntry)
    (inStream : IStream) (outStream : OStream) : Option Xfer :=
  match transferLoop c w obj.objSize (inStream.data.length + 2)
      (Xfer.init c inStream outStream) with
  | none => none
  | some s =>
    -- free everything we have allocated: if (writer) join
    let s := s.joinWriter w.writeFails
    some { s with writer := none }

/-- The function `RodsDownloadThread::transferFileParallel`. -/
def transferFileParallel (c : Consts) : Int := c.SYS_NOT_SUPPORTED

/-! ## `downloadFile` -/

/-- What a call of `downloadFile` leaves behind: the status it returns, the
local filesystem and the events it caused. -/
structure Download where
  status : Int
  fs : Fs
  events : List Event

/-- The function `RodsDownloadThread::downloadFile(conn, obj, localPath,
verifyChecksum, allowOverwrite)`; `none` when the transfer loop does not
end. -/
def downloadFile (c : Consts) (w : World) (fs : Fs) (obj : RodsObjEntry)
    (localPath : List Char) (verifyChecksum allowOverwrite : Bool) : Option Download :=
  -- the only use of `verifyChecksum` is in the block commented out below
  let _ := verifyChecksum
  -- check if we're allowed to proceed
  if fs.pathExists localPath && !allowOverwrite then
    some { status := c.OVERWRITE_WITHOUT_FORCE_FLAG, fs := fs, events := [] }
  else
    -- bring in a transport and a stream
    match w.remote obj.getObjectFullPath with
    | none =>
      some { status := c.SYS_API_INPUT_ERR, fs := fs
             events := [Event.openRemote obj.getObjectFullPath false] }
    | some bytes =>
      let ev1 := [Event.openRemote obj.getObjectFullPath true]
      if !w.localOpens localPath then
        some { status := c.FILE_OPEN_ERR, fs := fs
               events := ev1 ++ [Event.openLocal localPath false] }
      else
        let ev2 := ev1 ++ [Event.openLocal localPath true]
        let fs1 := fs.setFile localPath []
        -- update status display only on large enough objects
        let ev3 :=
          if obj.objSize > c.KANKI_BUFSIZE_INIT then
            ev2 ++ [Event.setupSubProgressDisplay StatusStr.transferring 0 100]
          else ev2
        match transferFileStream c w obj ⟨bytes, false⟩ ⟨[], false, false, 0⟩ with
        | none => none
        | some s =>
          -- close the local stream and rods data stream
          -- (the checksum verification that follows in the source is commented out)
          some { status := s.status
                 fs := fs1.setFile localPath s.outStream.written
                 events := ev3 ++ s.events ++ [Event.closeLocal, Event.closeRemote] }

/-! ## `run` -/

/-- The local path computed in the loop of `run` for an entry with full path
`objPath`: `basePath.size()` leading characters are erased from `objPath`
and the rest is appended to `destPath`. -/
def dstPathOf (destPath basePath objPath : List Char) : List Char :=
  destPath ++ objPath.drop basePath.length

/-- The expression `dstPath.substr(dstPath.find_last_of('/') + 1)`: what
follows the last slash, the whole path when it has none. -/
def dirNameOf (dstPath : List Char) : List Char :=
  (dstPath.reverse.takeWhile (fun ch => ch != '/')).reverse

/-- The `for` loop of `run` over `collObjs`, from index `i` on: the local
filesystem it leaves and its events.  A job handed to the thread pool is
recorded as a `post` event; it runs on a pool thread, concurrently with the
loop. -/
def dispatchLoop (w : World) (root : RodsObjEntry) (destPath : List Char)
    (verify overwrite : Bool) : Nat → List RodsObjEntry → Fs → Fs × List Event
  | _, [], fs => (fs, [])
  | i, curObj :: rest, fs =>
    let basePath := root.getObjectBasePath
    let objPath := curObj.getObjectFullPath
    let dstPath := dstPathOf destPath basePath objPath
    -- in the case of a data object, we do a get operation
    if curObj.objType = DATA_OBJ_T then
      let r := dispatchLoop w root destPath verify overwrite (i + 1) rest fs
      (r.1, [Event.progressUpdate (StatusStr.downloading curObj.getObjectName) (i + 1),
             Event.post curObj dstPath verify overwrite] ++ r.2)
    -- for collection objects we create the corresponding directory
    else if curObj.objType = COLL_OBJ_T then
      -- check if directory exists and if not, make it
      let existed := fs.dirs dstPath
      let fs1 := if !existed && w.mkpath dstPath then fs.addDir dstPath else fs
      let r := dispatchLoop w root destPath verify overwrite (i + 1) rest fs1
      (r.1, [Event.progressUpdate (StatusStr.creatingDirectory (dirNameOf dstPath)) (i + 1),
             Event.ensureDir dstPath existed] ++ r.2)
    else
      dispatchLoop w root destPath verify overwrite (i + 1) rest fs

/-- What `run` leaves behind: the local filesystem as changed by the thread
of `run` itself, and the events of that thread in program order. -/
structure Run where
  fs : Fs
  events : List Event

/-- The function `RodsDownloadThread::run()` for the object `root`, the
destination `destPath` and the two flags given to the constructor; `none`
when a transfer loop does not end. -/
def run (c : Consts) (w : World) (fs : Fs) (root : RodsNode) (destPath : List Char)
    (verify overwrite : Bool) : Option Run :=
  -- signal ui to setup progress display
  let ev0 := [Event.progressMarquee StatusStr.initializing]
  -- open the parallel connection for transfer and authenticate
  if w.connect < 0 then
    some ⟨fs, ev0 ++ [Event.connect w.connect,
      Event.reportError "Download failed" "Open parallel connection failed".toList w.connect]⟩
  else if w.login < 0 then
    some ⟨fs, ev0 ++ [Event.connect w.connect, Event.login w.login,
      Event.reportError "Download failed" "Authentication failed".toList w.login]⟩
  else
    let ev1 := ev0 ++ [Event.connect w.connect, Event.login w.login]
    -- in the case of downloading a collection, do it recursively
    if root.entry.objType = COLL_OBJ_T then
      -- first item to the download object list, then the list is built recursively
      let r := makeCollObjList root ⟨[root.entry], ev1⟩
      if r.1 = 0 then
        -- notify ui of progress bar state (object count), iterate thru object list
        let ev2 := r.2.events ++
          [Event.setupProgressDisplay StatusStr.initializing 0 r.2.objs.length]
        let d := dispatchLoop w root.entry destPath verify overwrite 0 r.2.objs fs
        some ⟨d.1, ev2 ++ d.2 ++ [Event.join, Event.disconnect]⟩
      else
        some ⟨fs, r.2.events ++ [Event.join, Event.disconnect]⟩
    -- in the case of downloading a single data object, a simple get operation
    else if root.entry.objType = DATA_OBJ_T then
      let dstPath := destPath ++ "/".toList ++ root.entry.getObjectName
      let ev2 := ev1 ++
        [Event.setupProgressDisplay (StatusStr.downloadingFile root.entry.getObjectName) 1 1,
         Event.get_connection]
      match downloadFile c w fs root.entry dstPath verify overwrite with
      | none => none
      | some d =>
        let ev3 := ev2 ++ d.events ++
          (if d.status < 0 then
            [Event.reportError "Download failed" "iRODS data stream error".toList d.status]
           else [])
        some ⟨d.fs, ev3 ++ [Event.join, Event.disconnect]⟩
    else
      some ⟨fs, ev1 ++ [Event.join, Event.disconnect]⟩

/-! ## The pre-order flattening of a tree, in the words of the specification -/

mutual
/-- The entries below a node, depth first and in pre-order: nothing below a
node that is not a collection; below a collection, each listed child in
listing order, every child followed directly by what is below it. -/
def descendants : RodsNode → List RodsObjEntry
  | .node entry _ children =>
    if entry.objType = COLL_OBJ_T then descendantsOfList children else []
/-- The pre-order flattening of a list of sibling subtrees. -/
def descendantsOfList : List RodsNode → List RodsObjEntry
  | [] => []
  | c :: cs => c.entry :: (descendants c ++ descendantsOfList cs)
end

/-- The depth-first pre-order flattening of a tree: the root, then everything
below it. -/
def preorder (root : RodsNode) : List RodsObjEntry :=
  root.entry :: descendants root

mutual
/-- Every `readColl` on a collection of the tree returns a non-negative
status. -/
def listingsSucceed : RodsNode → Bool
  | .node entry rc children =>
    if entry.objType = COLL_OBJ_T then decide (0 ≤ rc) && listingsSucceedList children
    else true
/-- Every tree of the list satisfies `listingsSucceed`. -/
def listingsSucceedList : List RodsNode → Bool
  | [] => true
  | c :: cs => listingsSucceed c && listingsSucceedList cs
end

mutual
/-- The entries below a node in pre-order, each paired with the entries of the
collections it lies in, outermost first; `anc` lists the collections the
node itself lies in. -/
def descendantsIn : List RodsObjEntry → RodsNode → List (List RodsObjEntry × RodsObjEntry)
  | anc, .node entry _ children =>
    if entry.objType = COLL_OBJ_T then descendantsInList (anc ++ [entry]) children else []
/-- The pre-order flattening of sibling subtrees that all lie in the
collections `anc`, every entry paired with the collections it lies in. -/
def descendantsInList :
    List RodsObjEntry → List RodsNode → List (List RodsObjEntry × RodsObjEntry)
  | _, [] => []
  | anc, c :: cs => (anc, c.entry) :: (descendantsIn anc c ++ descendantsInList anc cs)
end

/-- The pre-order flattening of a tree, every entry paired with its ancestors
(the collections it lies in), outermost first. -/
def preorderWithAncestors (root : RodsNode) : List (List RodsObjEntry × RodsObjEntry) :=
  ([], root.entry) :: descendantsIn [] root

/-- Path `q` lies in the directory `p`: it starts with `p` and a slash. -/
def InDir (p q : List Char) : Prop := (p ++ ['/']) <+: q

instance (p q : List Char) : Decidable (InDir p q) :=
  inferInstanceAs (Decidable ((p ++ ['/']) <+: q))

mutual
/-- The full path of every entry listed in a collection of the tree lies in the
full path of that collection. -/
def pathsNested : RodsNode → Bool
  | .node entry _ children =>
    if entry.objType = COLL_OBJ_T then pathsNestedList entry.getObjectFullPath children
    else true
/-- The trees of the list satisfy `pathsNested` and the full paths of their
roots lie in `parent`. -/
def pathsNestedList : List Char → List RodsNode → Bool
  | _, [] => true
  | parent, c :: cs =>
    decide (InDir parent c.entry.getObjectFullPath) && pathsNested c &&
      pathsNestedList parent cs
end

/-- The event is a job handed to the thread pool. -/
def Event.isPost : Event → Bool
  | Event.post _ _ _ _ => true
  | _ => false

/-- The entries appended by the `push_back` calls recorded in a log. -/
def pushed : List Event → List RodsObjEntry
  | [] => []
  | Event.push_back obj :: evs => obj :: pushed evs
  | _ :: evs => pushed evs

/-- No `readColl` recorded in the log returned a negative status. -/
def NoListingFailure (evs : List Event) : Prop :=
  ∀ p s, Event.readColl p s ∈ evs → 0 ≤ s

/-- How the result `r` of a walk relates to the state `w` it started from: the
log and the vector have only grown, the vector by the logged `push_back`
calls, and either the status is negative and the last thing logged is the
first failing `readColl`, whose status it is, or the status is non-negative
and no `readColl` failed. -/
def WalkSpec (w : Walk) (r : Int × Walk) : Prop :=
  ∃ new, r.2.events = w.events ++ new ∧ r.2.objs = w.objs ++ pushed new ∧
    ((r.1 < 0 ∧ ∃ pre p, new = pre ++ [Event.readColl p r.1] ∧ NoListingFailure pre) ∨
     (0 ≤ r.1 ∧ NoListingFailure new))

/-- The stream has neither error bit set. -/
def OStream.clean (o : OStream) : Prop := o.badbit = false ∧ o.failbit = false

/-- The bytes the pending write will store if it takes effect now: the first
`lastRead` bytes of the allocation its thread captured; nothing when no write
is pending. -/
def Xfer.pending (s : Xfer) : List Nat :=
  match s.writer with
  | some wr => if wr.done then [] else (s.mem wr.buffer).take s.lastRead
  | none => []

/-- The loop invariant of a faithful copy of `src`: no error bit is set; what
has been written, what the pending write holds and what is still unread make
up `src`; `totalRead` counts the first two; a stream with `failbit` set has
nothing left; and a pending write is due before the next read. -/
def CopyInv (src : List Nat) (s : Xfer) : Prop :=
  s.outStream.clean ∧
  s.outStream.written ++ s.pending ++ s.inStream.data = src ∧
  s.totalRead = (s.outStream.written ++ s.pending).length ∧
  (s.inStream.failbit = true → s.inStream.data = []) ∧
  (∀ wr, s.writer = some wr → wr.done = false → wr.timing = WriteTiming.afterCheck)

/-! ## Example inputs -/

/-- Constants for the examples: chunks of two bytes, sub-progress for objects
of more than one byte, and distinct negative error codes. -/
def exampleConsts : Consts where
  KANKI_BUFSIZE_INIT := 1
  KANKI_BUFSIZE_MAX := 2
  OVERWRITE_WITHOUT_FORCE_FLAG := -312000
  SYS_API_INPUT_ERR := -33000
  FILE_OPEN_ERR := -514000
  FILE_WRITE_ERR := -516000
  SYS_NOT_SUPPORTED := -70000

/-- The constants `exampleConsts` with chunks of eleven bytes. -/
def elevenByteChunks : Consts :=
  { exampleConsts with KANKI_BUFSIZE_MAX := 11 }

/-- An entry for the data object `name` of `size` bytes in collection `coll`. -/
def dataEntry (coll name : String) (size : Int) : RodsObjEntry where
  objType := DATA_OBJ_T
  collPath := coll.toList
  objSize := size
  getObjectName := name.toList
  getObjectFullPath := coll.toList ++ '/' :: name.toList
  getObjectBasePath := coll.toList

/-- An entry for the collection `name` inside the collection `parent`. -/
def collEntry (parent name : String) : RodsObjEntry where
  objType := COLL_OBJ_T
  collPath := parent.toList ++ '/' :: name.toList
  objSize := 0
  getObjectName := name.toList
  getObjectFullPath := parent.toList ++ '/' :: name.toList
  getObjectBasePath := parent.toList

/-- The collection `/zone/coll` holding `fileA` (10 bytes) and `subcoll`, which
holds `fileB` (5 bytes); every listing succeeds. -/
def scenarioA : RodsNode :=
  .node (collEntry "/zone" "coll") 0
    [.node (dataEntry "/zone/coll" "fileA" 10) 0 [],
     .node (collEntry "/zone/coll" "subcoll") 0
       [.node (dataEntry "/zone/coll/subcoll" "fileB" 5) 0 []]]

/-- The collection `/zone/coll` whose listing fails with status -818000. -/
def unreadableColl : RodsNode :=
  .node (collEntry "/zone" "coll") (-818000) []

/-- An empty local filesystem. -/
def emptyFs : Fs where
  files := fun _ => none
  dirs := fun _ => false

/-- A local filesystem holding the directory `/dst` and the file
`/dst/fileA` with the bytes 9, 9. -/
def fsWithFileA : Fs where
  files := fun p => if p = "/dst/fileA".toList then some [9, 9] else none
  dirs := fun p => decide (p = "/dst".toList)

/-- A world without failures: three-byte remote objects, every write taking
effect as soon as its thread is started. -/
def quietWorld : World where
  connect := 0
  login := 0
  remote := fun _ => some [1, 2, 3]
  remoteChecksum := fun _ => "sha2:AAAA".toList
  localOpens := fun _ => true
  mkpath := fun _ => true
  writeFails := fun _ => false
  timing := fun _ => WriteTiming.atLaunch

/-- The world `quietWorld`, except that every write takes effect only when its
thread is joined. -/
def deferredWorld : World :=
  { quietWorld with timing := fun _ => WriteTiming.atJoin }

/-- The world `quietWorld`, except that every write to the local stream
fails. -/
def failingDiskWorld : World :=
  { quietWorld with writeFails := fun _ => true }

/-- The world `quietWorld`, except that the server reports another checksum. -/
def otherChecksumWorld : World :=
  { quietWorld with remoteChecksum := fun _ => "sha2:BBBB".toList }

theorem pushed_append (a b : List Event) : pushed (a ++ b) = pushed a ++ pushed b := by
  induction a with
  | nil => rfl
  | cons e a ih => cases e <;> simp [pushed, ih]

theorem descendants_of_not_coll {n : RodsNode} (h : ¬ n.entry.objType = COLL_OBJ_T) :
    descendants n = [] := by
  cases n with
  | node e s ch =>
    unfold descendants
    simp only [RodsNode.entry] at h
    simp [h]

/-- The textbook form of the pre-order flattening: the subtrees of the listed
children are flattened one after the other. -/
theorem descendantsOfList_eq_flatMap (cs : List RodsNode) :
    descendantsOfList cs = cs.flatMap preorder := by
  induction cs with
  | nil => simp [descendantsOfList]
  | cons c cs ih => simp [descendantsOfList, preorder, ih]

/-- The pre-order flattening of a collection is its entry followed by the
flattenings of the listed children, in listing order. -/
theorem preorder_coll (entry : RodsObjEntry) (rc : Int) (children : List RodsNode)
    (h : entry.objType = COLL_OBJ_T) :
    preorder (.node entry rc children) = entry :: children.flatMap preorder := by
  simp [preorder, descendants, RodsNode.entry, h, descendantsOfList_eq_flatMap]

mutual
/-- When every listing succeeds the walk returns a non-negative status and
appends exactly the entries below the node, in pre-order. -/
theorem makeCollObjList_objs : ∀ (n : RodsNode) (w : Walk), listingsSucceed n = true →
    0 ≤ (makeCollObjList n w).1 ∧ (makeCollObjList n w).2.objs = w.objs ++ descendants n
  | .node entry rc children, w, h => by
    unfold makeCollObjList descendants
    unfold listingsSucceed at h
    by_cases hc : entry.objType = COLL_OBJ_T
    · simp only [hc, if_true, Bool.and_eq_true, decide_eq_true_eq] at h ⊢
      simp only [ge_iff_le, h.1, if_true]
      exact collLoop_objs children rc _ h.1 h.2
    · simp [hc]
theorem collLoop_objs : ∀ (cs : List RodsNode) (st : Int) (w : Walk), 0 ≤ st →
    listingsSucceedList cs = true →
    0 ≤ (collLoop cs st w).1 ∧ (collLoop cs st w).2.objs = w.objs ++ descendantsOfList cs
  | [], st, w, hst, _ => by
    unfold collLoop descendantsOfList
    simp [hst]
  | c :: cs, st, w, hst, h => by
    unfold collLoop descendantsOfList
    unfold listingsSucceedList at h
    simp only [Bool.and_eq_true] at h
    by_cases hc : c.entry.objType = COLL_OBJ_T
    · simp only [hc, if_true]
      have h1 := makeCollObjList_objs c
        ⟨w.objs ++ [c.entry], w.events ++ [Event.push_back c.entry,
          Event.progressMarquee (StatusStr.buildingList (w.objs ++ [c.entry]).length)]⟩ h.1
      have h2 := collLoop_objs cs (makeCollObjList c
        ⟨w.objs ++ [c.entry], w.events ++ [Event.push_back c.entry,
          Event.progressMarquee (StatusStr.buildingList (w.objs ++ [c.entry]).length)]⟩).1
        (makeCollObjList c
        ⟨w.objs ++ [c.entry], w.events ++ [Event.push_back c.entry,
          Event.progressMarquee (StatusStr.buildingList (w.objs ++ [c.entry]).length)]⟩).2 h1.1 h.2
      simp only [not_lt.mpr h1.1, if_false]
      refine ⟨h2.1, ?_⟩
      rw [h2.2, h1.2]
      simp
    · simp only [hc, if_false]
      have h2 := collLoop_objs cs st
        ⟨w.objs ++ [c.entry], w.events ++ [Event.push_back c.entry,
          Event.progressMarquee (StatusStr.buildingList (w.objs ++ [c.entry]).length)]⟩ hst h.2
      refine ⟨h2.1, ?_⟩
      rw [h2.2, descendants_of_not_coll hc]
      simp
end


/-- A walk that continues after a stretch `mid` of the log without failing
`readColl` satisfies `WalkSpec` from the start of that stretch. -/
theorem WalkSpec.step {w : Walk} {r : Int × Walk} (mid : List Event)
    (hmid : NoListingFailure mid)
    (h : WalkSpec ⟨w.objs ++ pushed mid, w.events ++ mid⟩ r) : WalkSpec w r := by
  obtain ⟨new, he, ho, hcase⟩ := h
  refine ⟨mid ++ new, ?_, ?_, ?_⟩
  · simpa using he
  · simpa [pushed_append] using ho
  · rcases hcase with ⟨hneg, pre, p, hnew, hpre⟩ | ⟨hpos, hnf⟩
    · refine Or.inl ⟨hneg, mid ++ pre, p, by simp [hnew], ?_⟩
      intro q s hq
      rcases List.mem_append.mp hq with hq | hq
      · exact hmid q s hq
      · exact hpre q s hq
    · refine Or.inr ⟨hpos, ?_⟩
      intro q s hq
      rcases List.mem_append.mp hq with hq | hq
      · exact hmid q s hq
      · exact hnf q s hq

mutual
/-- Every call of `makeCollObjList` satisfies `WalkSpec`. -/
theorem makeCollObjList_spec : ∀ (n : RodsNode) (w : Walk), WalkSpec w (makeCollObjList n w)
  | .node entry rc children, w => by
    unfold makeCollObjList
    by_cases hc : entry.objType = COLL_OBJ_T
    · simp only [hc, if_true]
      by_cases hrc : rc ≥ 0
      · simp only [hrc, if_true]
        apply WalkSpec.step [Event.readColl entry.collPath rc]
        · intro q s hq
          simp only [List.mem_singleton, Event.readColl.injEq] at hq
          omega
        · have hp : pushed [Event.readColl entry.collPath rc] = [] := rfl
          rw [hp, List.append_nil]
          exact collLoop_spec children rc _ hrc
      · simp only [hrc, if_false]
        refine ⟨[Event.readColl entry.collPath rc], rfl, by simp [pushed], Or.inl ⟨by omega, [], entry.collPath, by simp, ?_⟩⟩
        intro q s hq
        simp at hq
    · simp only [hc, if_false]
      exact ⟨[], by simp, by simp [pushed], Or.inr ⟨le_refl _, by intro q s hq; simp at hq⟩⟩
theorem collLoop_spec : ∀ (cs : List RodsNode) (st : Int) (w : Walk), 0 ≤ st →
    WalkSpec w (collLoop cs st w)
  | [], st, w, hst => by
    unfold collLoop
    exact ⟨[], by simp, by simp [pushed], Or.inr ⟨hst, by intro q s hq; simp at hq⟩⟩
  | c :: cs, st, w, hst => by
    unfold collLoop
    have hmid : NoListingFailure [Event.push_back c.entry,
          Event.progressMarquee (StatusStr.buildingList (w.objs ++ [c.entry]).length)] := by
      intro q s hq
      simp at hq
    apply WalkSpec.step [Event.push_back c.entry,
          Event.progressMarquee (StatusStr.buildingList (w.objs ++ [c.entry]).length)] hmid
    have hp : pushed [Event.push_back c.entry,
          Event.progressMarquee (StatusStr.buildingList (w.objs ++ [c.entry]).length)] = [c.entry] := rfl
    rw [hp]
    by_cases hc : c.entry.objType = COLL_OBJ_T
    · simp only [hc, if_true]
      have h1 := makeCollObjList_spec c
        ⟨w.objs ++ [c.entry], w.events ++ [Event.push_back c.entry,
          Event.progressMarquee (StatusStr.buildingList (w.objs ++ [c.entry]).length)]⟩
      by_cases hneg : (makeCollObjList c
        ⟨w.objs ++ [c.entry], w.events ++ [Event.push_back c.entry,
          Event.progressMarquee (StatusStr.buildingList (w.objs ++ [c.entry]).length)]⟩).1 < 0
      · simp only [hneg, if_true]
        exact h1
      · simp only [hneg, if_false]
        have h2 := collLoop_spec cs _ (makeCollObjList c
          ⟨w.objs ++ [c.entry], w.events ++ [Event.push_back c.entry,
          Event.progressMarquee (StatusStr.buildingList (w.objs ++ [c.entry]).length)]⟩).2 (not_lt.mp hneg)
        obtain ⟨new1, he1, ho1, hcase1⟩ := h1
        rcases hcase1 with ⟨hn, _⟩ | ⟨_, hnf1⟩
        · exact absurd hn hneg
        · apply WalkSpec.step new1 hnf1
          simp only at he1 ho1
          rw [← he1, ← ho1]
          exact h2
    · simp only [hc, if_false]
      exact collLoop_spec cs st _ hst
end


/-! ## Lemmas on `transferFileStream` -/

/-! ### Rounding to the nearest `double` -/

theorem floorLog2_spec : ∀ (fuel n : Nat), n ≤ fuel → 0 < n →
    2 ^ floorLog2 fuel n ≤ n ∧ n < 2 ^ (floorLog2 fuel n + 1)
  | 0, n, h1, h2 => by omega
  | fuel + 1, n, h1, h2 => by
    unfold floorLog2
    by_cases h : n < 2
    · rw [if_pos h]
      simp
      omega
    · rw [if_neg h]
      obtain ⟨ih1, ih2⟩ := floorLog2_spec fuel (n / 2) (by omega) (by omega)
      constructor
      · rw [pow_succ]
        omega
      · rw [pow_succ]
        omega

theorem two_pow_toNat_div (k : Int) :
    (2 : ℚ) ^ k.toNat / (2 : ℚ) ^ (-k).toNat = (2 : ℚ) ^ k := by
  rcases le_total 0 k with h | h
  · have h1 : (-k).toNat = 0 := Int.toNat_eq_zero.mpr (by omega)
    rw [h1, pow_zero, div_one, ← zpow_natCast, Int.toNat_of_nonneg h]
  · have h1 : k.toNat = 0 := Int.toNat_eq_zero.mpr h
    have h2 : ((-k).toNat : Int) = -k := Int.toNat_of_nonneg (by omega)
    rw [h1, pow_zero, one_div, ← zpow_natCast, h2, zpow_neg, inv_inv]

theorem binade_spec (a b : Nat) (ha : 0 < a) (hb : 0 < b) :
    (2 : ℚ) ^ binade a b ≤ (a : ℚ) / b ∧ (a : ℚ) / b < (2 : ℚ) ^ (binade a b + 1) := by
  obtain ⟨ha1, ha2⟩ := floorLog2_spec a a le_rfl ha
  obtain ⟨hb1, hb2⟩ := floorLog2_spec b b le_rfl hb
  have hbq : (0 : ℚ) < b := by exact_mod_cast hb
  have ha1q : (2 : ℚ) ^ (floorLog2 a a : Int) ≤ a := by
    rw [zpow_natCast]; exact_mod_cast ha1
  have ha2q : (a : ℚ) < (2 : ℚ) ^ ((floorLog2 a a : Int) + 1) := by
    rw [← Nat.cast_succ, zpow_natCast]; exact_mod_cast ha2
  have hb1q : (2 : ℚ) ^ (floorLog2 b b : Int) ≤ b := by
    rw [zpow_natCast]; exact_mod_cast hb1
  have hb2q : (b : ℚ) < (2 : ℚ) ^ ((floorLog2 b b : Int) + 1) := by
    rw [← Nat.cast_succ, zpow_natCast]; exact_mod_cast hb2
  have h2 : (0 : ℚ) < 2 := by norm_num
  have hpos : ∀ z : Int, (0 : ℚ) < (2 : ℚ) ^ z := fun z => zpow_pos h2 z
  have hcond : (b * 2 ^ ((floorLog2 a a : Int) - (floorLog2 b b : Int)).toNat ≤
      a * 2 ^ (-((floorLog2 a a : Int) - (floorLog2 b b : Int))).toNat) ↔
      (2 : ℚ) ^ ((floorLog2 a a : Int) - (floorLog2 b b : Int)) ≤ (a : ℚ) / b := by
    rw [← two_pow_toNat_div, div_le_div_iff₀ (pow_pos h2 _) hbq]
    constructor
    · intro h
      have : ((b * 2 ^ ((floorLog2 a a : Int) - (floorLog2 b b : Int)).toNat : Nat) : ℚ) ≤
          ((a * 2 ^ (-((floorLog2 a a : Int) - (floorLog2 b b : Int))).toNat : Nat) : ℚ) := by
        exact_mod_cast h
      push_cast at this
      linarith
    · intro h
      have : ((b * 2 ^ ((floorLog2 a a : Int) - (floorLog2 b b : Int)).toNat : Nat) : ℚ) ≤
          ((a * 2 ^ (-((floorLog2 a a : Int) - (floorLog2 b b : Int))).toNat : Nat) : ℚ) := by
        push_cast
        linarith
      exact_mod_cast this
  unfold binade
  simp only
  by_cases hc : b * 2 ^ ((floorLog2 a a : Int) - (floorLog2 b b : Int)).toNat ≤
      a * 2 ^ (-((floorLog2 a a : Int) - (floorLog2 b b : Int))).toNat
  · rw [if_pos hc]
    refine ⟨hcond.mp hc, ?_⟩
    rw [div_lt_iff₀ hbq]
    have e : (2 : ℚ) ^ ((floorLog2 a a : Int) - (floorLog2 b b : Int) + 1) *
        (2 : ℚ) ^ (floorLog2 b b : Int) = (2 : ℚ) ^ ((floorLog2 a a : Int) + 1) := by
      rw [← zpow_add₀ (by norm_num : (2 : ℚ) ≠ 0)]
      congr 1
      ring
    calc (a : ℚ) < (2 : ℚ) ^ ((floorLog2 a a : Int) + 1) := ha2q
      _ = (2 : ℚ) ^ ((floorLog2 a a : Int) - (floorLog2 b b : Int) + 1) *
            (2 : ℚ) ^ (floorLog2 b b : Int) := e.symm
      _ ≤ (2 : ℚ) ^ ((floorLog2 a a : Int) - (floorLog2 b b : Int) + 1) * b :=
          mul_le_mul_of_nonneg_left hb1q (hpos _).le
  · rw [if_neg hc]
    have hlt : (a : ℚ) / b < (2 : ℚ) ^ ((floorLog2 a a : Int) - (floorLog2 b b : Int)) :=
      lt_of_not_le (fun h => hc (hcond.mpr h))
    refine ⟨?_, by simpa using hlt⟩
    rw [le_div_iff₀ hbq]
    have e : (2 : ℚ) ^ ((floorLog2 a a : Int) - (floorLog2 b b : Int) - 1) *
        (2 : ℚ) ^ ((floorLog2 b b : Int) + 1) = (2 : ℚ) ^ (floorLog2 a a : Int) := by
      rw [← zpow_add₀ (by norm_num : (2 : ℚ) ≠ 0)]
      congr 1
      ring
    calc (2 : ℚ) ^ ((floorLog2 a a : Int) - (floorLog2 b b : Int) - 1) * b
        ≤ (2 : ℚ) ^ ((floorLog2 a a : Int) - (floorLog2 b b : Int) - 1) *
            (2 : ℚ) ^ ((floorLog2 b b : Int) + 1) :=
          mul_le_mul_of_nonneg_left hb2q.le (hpos _).le
      _ = (2 : ℚ) ^ (floorLog2 a a : Int) := e
      _ ≤ a := ha1q

theorem binade_le_of_le {x y : ℚ} {E F : Int} (hx : (2 : ℚ) ^ E ≤ x) (hxy : x ≤ y)
    (hy : y < (2 : ℚ) ^ (F + 1)) : E ≤ F := by
  have h : (2 : ℚ) ^ E < (2 : ℚ) ^ (F + 1) := lt_of_le_of_lt (hx.trans hxy) hy
  have := (zpow_lt_zpow_iff_right₀ (by norm_num : (1 : ℚ) < 2)).mp h
  omega

theorem roundHalfEven_mono {n d n' d' : Nat} (hd : 0 < d) (hd' : 0 < d')
    (h : n * d' ≤ n' * d) : roundHalfEven n d ≤ roundHalfEven n' d' := by
  have hn := Nat.div_add_mod n d
  have hn' := Nat.div_add_mod n' d'
  have hr := Nat.mod_lt n hd
  have hr' := Nat.mod_lt n' hd'
  unfold roundHalfEven
  simp only
  generalize n / d = q at *
  generalize n % d = r at *
  generalize n' / d' = q' at *
  generalize n' % d' = r' at *
  subst hn hn'
  have hq : q ≤ q' := by
    by_contra hlt
    have h1 : q' + 1 ≤ q := by omega
    have h2 : (d' * q' + r') * d < (d * q + r) * d' := by
      have : d * d' * (q' + 1) ≤ d * d' * q := Nat.mul_le_mul_left _ h1
      nlinarith
    omega
  rcases Nat.lt_or_ge q q' with hlt | hge
  · have hl : (if 2 * r < d then q else if d < 2 * r then q + 1
        else if q % 2 = 0 then q else q + 1) ≤ q + 1 := by
      split_ifs <;> omega
    have hr : q' ≤ (if 2 * r' < d' then q' else if d' < 2 * r' then q' + 1
        else if q' % 2 = 0 then q' else q' + 1) := by
      split_ifs <;> omega
    omega
  · have hqq : q = q' := by omega
    subst hqq
    have hrr : r * d' ≤ r' * d := by nlinarith
    split_ifs <;> first | omega | (exfalso; nlinarith)

theorem roundHalfEven_mono_q {n d n' d' : Nat} (hd : 0 < d) (hd' : 0 < d')
    (h : (n : ℚ) / d ≤ (n' : ℚ) / d') : roundHalfEven n d ≤ roundHalfEven n' d' := by
  apply roundHalfEven_mono hd hd'
  have hdq : (0 : ℚ) < d := by exact_mod_cast hd
  have hdq' : (0 : ℚ) < d' := by exact_mod_cast hd'
  rw [div_le_div_iff₀ hdq hdq'] at h
  exact_mod_cast h

theorem roundHalfEven_int (m : Nat) : roundHalfEven m 1 = m := by
  simp [roundHalfEven, Nat.mod_one]

theorem roundHalfEven_eq_of_eq {n d m : Nat} (hd : 0 < d) (h : (n : ℚ) / d = m) :
    roundHalfEven n d = m := by
  have h1 : roundHalfEven n d ≤ roundHalfEven m 1 :=
    roundHalfEven_mono_q hd Nat.one_pos (by rw [h]; simp)
  have h2 : roundHalfEven m 1 ≤ roundHalfEven n d :=
    roundHalfEven_mono_q Nat.one_pos hd (by rw [h]; simp)
  rw [roundHalfEven_int] at h1 h2
  omega

theorem roundHalfEven_ge {n d m : Nat} (hd : 0 < d) (h : (m : ℚ) ≤ (n : ℚ) / d) :
    m ≤ roundHalfEven n d := by
  have := @roundHalfEven_mono_q m 1 n d Nat.one_pos hd (by simpa using h)
  rwa [roundHalfEven_int] at this

theorem roundHalfEven_le {n d m : Nat} (hd : 0 < d) (h : (n : ℚ) / d ≤ (m : ℚ)) :
    roundHalfEven n d ≤ m := by
  have := @roundHalfEven_mono_q n d m 1 hd Nat.one_pos (by simpa using h)
  rwa [roundHalfEven_int] at this

theorem Frac.val_nonneg (f : Frac) : 0 ≤ f.val :=
  div_nonneg (Nat.cast_nonneg _) (Nat.cast_nonneg _)

theorem roundDouble_den_pos (a b : Nat) : 0 < (roundDouble a b).den := by
  unfold roundDouble
  split
  · exact Nat.one_pos
  · exact Nat.pow_pos (by norm_num)

/-- The scaled fraction that `roundDouble` rounds to an integer. -/
theorem scaled_eq (a b : Nat) (k : Int) :
    ((a * 2 ^ k.toNat : Nat) : ℚ) / ((b * 2 ^ (-k).toNat : Nat) : ℚ) =
      (a : ℚ) / b * (2 : ℚ) ^ k := by
  rw [← two_pow_toNat_div k]
  push_cast
  rw [mul_div_mul_comm]

theorem scaled_den_pos (b : Nat) (k : Int) (hb : 0 < b) : 0 < b * 2 ^ (-k).toNat :=
  Nat.mul_pos hb (Nat.pow_pos (by norm_num))

theorem roundDouble_val (a b : Nat) (ha : 0 < a) :
    (roundDouble a b).val =
      (roundHalfEven (a * 2 ^ (52 - binade a b).toNat) (b * 2 ^ (-(52 - binade a b)).toNat) : ℚ) *
        (2 : ℚ) ^ (binade a b - 52) := by
  unfold roundDouble
  rw [if_neg (by omega)]
  simp only [Frac.val]
  have := two_pow_toNat_div (-(52 - binade a b))
  rw [neg_neg] at this
  push_cast
  rw [mul_div_assoc, this]
  congr 2
  ring

theorem scaled_bounds (a b : Nat) (ha : 0 < a) (hb : 0 < b) :
    (2 : ℚ) ^ (52 : Nat) ≤ (a : ℚ) / b * (2 : ℚ) ^ (52 - binade a b) ∧
    (a : ℚ) / b * (2 : ℚ) ^ (52 - binade a b) < (2 : ℚ) ^ (53 : Nat) := by
  obtain ⟨h1, h2⟩ := binade_spec a b ha hb
  have hp : (0 : ℚ) < (2 : ℚ) ^ (52 - binade a b) := zpow_pos (by norm_num) _
  have e1 : (2 : ℚ) ^ binade a b * (2 : ℚ) ^ (52 - binade a b) = (2 : ℚ) ^ (52 : Nat) := by
    rw [← zpow_add₀ (by norm_num : (2 : ℚ) ≠ 0), ← zpow_natCast]
    congr 1
    push_cast
    ring
  have e2 : (2 : ℚ) ^ (binade a b + 1) * (2 : ℚ) ^ (52 - binade a b) = (2 : ℚ) ^ (53 : Nat) := by
    rw [← zpow_add₀ (by norm_num : (2 : ℚ) ≠ 0), ← zpow_natCast]
    congr 1
    push_cast
    ring
  constructor
  · rw [← e1]
    exact mul_le_mul_of_nonneg_right h1 hp.le
  · rw [← e2]
    exact mul_lt_mul_of_pos_right h2 hp

/-- The mantissa `roundDouble` computes has 53 bits, or is `2 ^ 53`. -/
theorem mantissa_bounds (a b : Nat) (ha : 0 < a) (hb : 0 < b) :
    2 ^ 52 ≤ roundHalfEven (a * 2 ^ (52 - binade a b).toNat) (b * 2 ^ (-(52 - binade a b)).toNat) ∧
    roundHalfEven (a * 2 ^ (52 - binade a b).toNat) (b * 2 ^ (-(52 - binade a b)).toNat) ≤ 2 ^ 53 := by
  obtain ⟨h1, h2⟩ := scaled_bounds a b ha hb
  rw [← scaled_eq] at h1 h2
  constructor
  · apply roundHalfEven_ge (scaled_den_pos b _ hb)
    exact_mod_cast h1
  · apply roundHalfEven_le (scaled_den_pos b _ hb)
    have : ((2 ^ 53 : Nat) : ℚ) = (2 : ℚ) ^ (53 : Nat) := by norm_cast
    rw [this]
    exact h2.le

theorem roundDouble_pos (a b : Nat) (ha : 0 < a) (hb : 0 < b) : 0 < (roundDouble a b).val := by
  rw [roundDouble_val a b ha]
  have h := (mantissa_bounds a b ha hb).1
  have hm : (0 : ℚ) < (roundHalfEven (a * 2 ^ (52 - binade a b).toNat)
      (b * 2 ^ (-(52 - binade a b)).toNat) : ℚ) := by
    have : 0 < roundHalfEven (a * 2 ^ (52 - binade a b).toNat)
        (b * 2 ^ (-(52 - binade a b)).toNat) := lt_of_lt_of_le (Nat.pow_pos (by norm_num)) h
    exact_mod_cast this
  exact mul_pos hm (zpow_pos (by norm_num) _)

theorem roundDouble_zero (b : Nat) : (roundDouble 0 b).val = 0 := by
  simp [roundDouble, Frac.val]

/-- Rounding to the nearest `double` is monotone. -/
theorem roundDouble_mono {a b a' b' : Nat} (hb : 0 < b) (hb' : 0 < b')
    (h : (a : ℚ) / b ≤ (a' : ℚ) / b') : (roundDouble a b).val ≤ (roundDouble a' b').val := by
  rcases Nat.eq_zero_or_pos a with rfl | ha
  · rw [roundDouble_zero]
    exact Frac.val_nonneg _
  have hbq : (0 : ℚ) < b := by exact_mod_cast hb
  have hbq' : (0 : ℚ) < b' := by exact_mod_cast hb'
  have ha' : 0 < a' := by
    rcases Nat.eq_zero_or_pos a' with rfl | h0
    · have hpos : (0 : ℚ) < (a : ℚ) / b := div_pos (by exact_mod_cast ha) hbq
      simp at h
      linarith
    · exact h0
  obtain ⟨s1, s2⟩ := binade_spec a b ha hb
  obtain ⟨s1', s2'⟩ := binade_spec a' b' ha' hb'
  have hE : binade a b ≤ binade a' b' := binade_le_of_le s1 h s2'
  rw [roundDouble_val a b ha, roundDouble_val a' b' ha']
  rcases eq_or_lt_of_le hE with heq | hlt
  · rw [← heq]
    apply mul_le_mul_of_nonneg_right _ (zpow_pos (by norm_num : (0 : ℚ) < 2) _).le
    have : roundHalfEven (a * 2 ^ (52 - binade a b).toNat) (b * 2 ^ (-(52 - binade a b)).toNat) ≤
        roundHalfEven (a' * 2 ^ (52 - binade a b).toNat)
          (b' * 2 ^ (-(52 - binade a b)).toNat) := by
      apply roundHalfEven_mono_q (scaled_den_pos b _ hb) (scaled_den_pos b' _ hb')
      rw [scaled_eq, scaled_eq]
      exact mul_le_mul_of_nonneg_right h (zpow_pos (by norm_num : (0 : ℚ) < 2) _).le
    exact_mod_cast this
  · have hu := (mantissa_bounds a b ha hb).2
    have hl := (mantissa_bounds a' b' ha' hb').1
    have huq : (roundHalfEven (a * 2 ^ (52 - binade a b).toNat)
        (b * 2 ^ (-(52 - binade a b)).toNat) : ℚ) ≤ (2 : ℚ) ^ (53 : Int) := by
      have e53 : ((2 ^ 53 : Nat) : ℚ) = (2 : ℚ) ^ (53 : Int) := by norm_num
      rw [← e53]
      exact_mod_cast hu
    have hlq : (2 : ℚ) ^ (52 : Int) ≤ (roundHalfEven (a' * 2 ^ (52 - binade a' b').toNat)
        (b' * 2 ^ (-(52 - binade a' b')).toNat) : ℚ) := by
      have e52 : ((2 ^ 52 : Nat) : ℚ) = (2 : ℚ) ^ (52 : Int) := by norm_num
      rw [← e52]
      exact_mod_cast hl
    have h2 : (0 : ℚ) < 2 := by norm_num
    calc (roundHalfEven (a * 2 ^ (52 - binade a b).toNat)
          (b * 2 ^ (-(52 - binade a b)).toNat) : ℚ) * (2 : ℚ) ^ (binade a b - 52)
        ≤ (2 : ℚ) ^ (53 : Int) * (2 : ℚ) ^ (binade a b - 52) :=
          mul_le_mul_of_nonneg_right huq (zpow_pos h2 _).le
      _ = (2 : ℚ) ^ (binade a b + 1) := by
          rw [← zpow_add₀ (by norm_num : (2 : ℚ) ≠ 0)]
          congr 1
          ring
      _ ≤ (2 : ℚ) ^ (binade a' b') :=
          (zpow_le_zpow_iff_right₀ (by norm_num : (1 : ℚ) < 2)).mpr (by omega)
      _ = (2 : ℚ) ^ (52 : Int) * (2 : ℚ) ^ (binade a' b' - 52) := by
          rw [← zpow_add₀ (by norm_num : (2 : ℚ) ≠ 0)]
          congr 1
          ring
      _ ≤ _ := mul_le_mul_of_nonneg_right hlq (zpow_pos h2 _).le

/-- A value with a mantissa of 53 bits is a `double`: rounding returns it. -/
theorem roundDouble_exact (a b M : Nat) (e : Int) (ha : 0 < a) (hb : 0 < b)
    (hM1 : 2 ^ 52 ≤ M) (hM2 : M < 2 ^ 53) (h : (a : ℚ) / b = (M : ℚ) * (2 : ℚ) ^ e) :
    (roundDouble a b).val = (a : ℚ) / b := by
  obtain ⟨s1, s2⟩ := binade_spec a b ha hb
  have h2 : (0 : ℚ) < 2 := by norm_num
  have hpe : (0 : ℚ) < (2 : ℚ) ^ e := zpow_pos h2 e
  have hM1q : (2 : ℚ) ^ (52 : Int) ≤ (M : ℚ) := by
    have e52 : ((2 ^ 52 : Nat) : ℚ) = (2 : ℚ) ^ (52 : Int) := by norm_num
    rw [← e52]
    exact_mod_cast hM1
  have hM2q : (M : ℚ) < (2 : ℚ) ^ (53 : Int) := by
    have e53 : ((2 ^ 53 : Nat) : ℚ) = (2 : ℚ) ^ (53 : Int) := by norm_num
    rw [← e53]
    exact_mod_cast hM2
  have l1 : (2 : ℚ) ^ (52 + e) ≤ (a : ℚ) / b := by
    rw [h, zpow_add₀ (by norm_num : (2 : ℚ) ≠ 0)]
    exact mul_le_mul_of_nonneg_right hM1q hpe.le
  have l2 : (a : ℚ) / b < (2 : ℚ) ^ (52 + e + 1) := by
    have : (52 : Int) + e + 1 = 53 + e := by ring
    rw [h, this, zpow_add₀ (by norm_num : (2 : ℚ) ≠ 0)]
    exact mul_lt_mul_of_pos_right hM2q hpe
  have hE : binade a b = 52 + e := by
    have := binade_le_of_le s1 le_rfl l2
    have := binade_le_of_le l1 le_rfl s2
    omega
  have hk : 52 - binade a b = -e := by omega
  have hsc : ((a * 2 ^ (52 - binade a b).toNat : Nat) : ℚ) /
      ((b * 2 ^ (-(52 - binade a b)).toNat : Nat) : ℚ) = (M : ℚ) := by
    rw [scaled_eq, hk, h, mul_assoc, ← zpow_add₀ (by norm_num : (2 : ℚ) ≠ 0)]
    simp
  rw [roundDouble_val a b ha, roundHalfEven_eq_of_eq (scaled_den_pos b _ hb) hsc, h]
  congr 2
  omega

theorem roundDouble_one (a : Nat) (ha : 0 < a) : (roundDouble a a).val = 1 := by
  have haq : (a : ℚ) ≠ 0 := by exact_mod_cast ha.ne'
  have h : (a : ℚ) / a = ((2 ^ 52 : Nat) : ℚ) * (2 : ℚ) ^ (-52 : Int) := by
    rw [div_self haq]
    norm_num
  rw [roundDouble_exact a a (2 ^ 52) (-52) ha ha le_rfl (by norm_num) h, div_self haq]

theorem roundDouble_hundred (a b : Nat) (hb : 0 < b) (h : (a : ℚ) / b = 100) :
    (roundDouble a b).val = 100 := by
  have ha : 0 < a := by
    rcases Nat.eq_zero_or_pos a with rfl | h0
    · simp at h
    · exact h0
  have h' : (a : ℚ) / b = ((100 * 2 ^ 46 : Nat) : ℚ) * (2 : ℚ) ^ (-46 : Int) := by
    rw [h]
    norm_num
  rw [roundDouble_exact a b (100 * 2 ^ 46) (-46) ha hb (by norm_num) (by norm_num) h', h]

theorem Frac.num_pos_of_val_pos {f : Frac} (h : 0 < f.val) : 0 < f.num := by
  rcases Nat.eq_zero_or_pos f.num with h0 | h0
  · simp [Frac.val, h0] at h
  · exact h0

/-- The fraction that `ratioTimes100` rounds last, in terms of the values. -/
theorem ratioTimes100_val (t s : Nat) :
    (ratioTimes100 t s).val =
      (roundDouble
        ((roundDouble ((roundDouble t 1).num * (roundDouble s 1).den)
          ((roundDouble t 1).den * (roundDouble s 1).num)).num * 100)
        (roundDouble ((roundDouble t 1).num * (roundDouble s 1).den)
          ((roundDouble t 1).den * (roundDouble s 1).num)).den).val := rfl

theorem ratioTimes100_mono {t₁ t₂ s : Nat} (hs : 0 < s) (ht : t₁ ≤ t₂) :
    (ratioTimes100 t₁ s).val ≤ (ratioTimes100 t₂ s).val := by
  have hx : (roundDouble t₁ 1).val ≤ (roundDouble t₂ 1).val :=
    roundDouble_mono Nat.one_pos Nat.one_pos (by
      have : (t₁ : ℚ) ≤ t₂ := by exact_mod_cast ht
      simpa using this)
  have hy : 0 < (roundDouble s 1).val := roundDouble_pos s 1 hs Nat.one_pos
  have hyn : 0 < (roundDouble s 1).num := Frac.num_pos_of_val_pos hy
  have hyd := roundDouble_den_pos s 1
  have hd₁ : 0 < (roundDouble t₁ 1).den * (roundDouble s 1).num :=
    Nat.mul_pos (roundDouble_den_pos _ _) hyn
  have hd₂ : 0 < (roundDouble t₂ 1).den * (roundDouble s 1).num :=
    Nat.mul_pos (roundDouble_den_pos _ _) hyn
  have hfrac : ∀ t : Nat, (((roundDouble t 1).num * (roundDouble s 1).den : Nat) : ℚ) /
      (((roundDouble t 1).den * (roundDouble s 1).num : Nat) : ℚ) =
      (roundDouble t 1).val / (roundDouble s 1).val := by
    intro t
    have h1 : ((roundDouble t 1).den : ℚ) ≠ 0 := by
      exact_mod_cast (roundDouble_den_pos t 1).ne'
    have h2 : ((roundDouble s 1).den : ℚ) ≠ 0 := by exact_mod_cast hyd.ne'
    have h3 : ((roundDouble s 1).num : ℚ) ≠ 0 := by exact_mod_cast hyn.ne'
    simp only [Frac.val]
    push_cast
    field_simp
  have hr : (roundDouble ((roundDouble t₁ 1).num * (roundDouble s 1).den)
        ((roundDouble t₁ 1).den * (roundDouble s 1).num)).val ≤
      (roundDouble ((roundDouble t₂ 1).num * (roundDouble s 1).den)
        ((roundDouble t₂ 1).den * (roundDouble s 1).num)).val := by
    apply roundDouble_mono hd₁ hd₂
    rw [hfrac, hfrac]
    exact div_le_div_of_nonneg_right hx hy.le
  rw [ratioTimes100_val, ratioTimes100_val]
  apply roundDouble_mono (roundDouble_den_pos _ _) (roundDouble_den_pos _ _)
  push_cast
  rw [mul_div_right_comm, mul_div_right_comm]
  exact mul_le_mul_of_nonneg_right hr (by norm_num)

theorem ratioTimes100_full {s : Nat} (hs : 0 < s) : (ratioTimes100 s s).val = 100 := by
  have hy : 0 < (roundDouble s 1).val := roundDouble_pos s 1 hs Nat.one_pos
  have hyn : 0 < (roundDouble s 1).num := Frac.num_pos_of_val_pos hy
  have hyd := roundDouble_den_pos s 1
  have hone : (roundDouble ((roundDouble s 1).num * (roundDouble s 1).den)
      ((roundDouble s 1).den * (roundDouble s 1).num)).val = 1 := by
    rw [Nat.mul_comm (roundDouble s 1).den]
    exact roundDouble_one _ (Nat.mul_pos hyn hyd)
  rw [ratioTimes100_val]
  apply roundDouble_hundred _ _ (roundDouble_den_pos _ _)
  push_cast
  rw [mul_div_right_comm]
  rw [Frac.val] at hone
  rw [hone]
  norm_num

theorem ceil_frac (n d : Nat) : -(-(n : Int) / (d : Int)) = ⌈(n : ℚ) / (d : ℚ)⌉ := by
  have h : (n : ℚ) / (d : ℚ) = -((((-(n : Int)) : Int) : ℚ) / (d : ℚ)) := by
    push_cast
    ring
  rw [h, Int.ceil_neg, Rat.floor_intCast_div_natCast]

/-- For a positive size `percentage` is the ceiling of the `double` product. -/
theorem percentage_of_pos {t : Nat} {sz : Int} (hsz : 0 < sz) (ht : t < 2 ^ 63)
    (hsz2 : sz < 2 ^ 63) :
    percentage t sz = some ⌈(ratioTimes100 t sz.natAbs).val⌉ := by
  unfold percentage
  rw [if_neg (by omega)]
  simp only [hsz, if_true, Frac.val, ceil_frac]

theorem percentage_full {sz : Int} (hsz : 0 < sz) (hsz2 : sz < 2 ^ 63) {t : Nat}
    (ht : (t : Int) = sz) : percentage t sz = some 100 := by
  have hn : sz.natAbs = t := by omega
  rw [percentage_of_pos hsz (by omega) hsz2, hn, ratioTimes100_full (by omega)]
  simp

/-- For a positive size, `exactPercentage` is the ceiling of the exact
quotient. -/
theorem exactPercentage_eq_ceil (t : Nat) {s : Int} (hs : 0 < s) :
    exactPercentage t s = ⌈((t : ℚ) / (s : ℚ)) * 100⌉ := by
  obtain ⟨d, rfl⟩ : ∃ d : ℕ, s = d := ⟨s.toNat, (Int.toNat_of_nonneg hs.le).symm⟩
  unfold exactPercentage
  rw [Int.fdiv_eq_ediv _ hs.le]
  have h : ((t : ℚ) / ((d : Int) : ℚ)) * 100 = -(((-((t : Int) * 100) : Int) : ℚ) / (d : ℚ)) := by
    push_cast
    field_simp
  rw [h, Int.ceil_neg, neg_inj, Rat.floor_intCast_div_natCast]

/-! ### The loop -/

section writer
variable (f : Nat → Bool) (s : Xfer) (wr : Writer) (t : WriteTiming)

@[simp] theorem runWriter_inStream : (s.runWriter f wr).inStream = s.inStream := rfl
@[simp] theorem runWriter_totalRead : (s.runWriter f wr).totalRead = s.totalRead := rfl
@[simp] theorem runWriter_percentages : (s.runWriter f wr).percentages = s.percentages := rfl
@[simp] theorem runWriter_status : (s.runWriter f wr).status = s.status := rfl

@[simp] theorem runWriterAt_inStream : (s.runWriterAt f t).inStream = s.inStream := by
  unfold Xfer.runWriterAt; split <;> [split; skip] <;> rfl
@[simp] theorem runWriterAt_totalRead : (s.runWriterAt f t).totalRead = s.totalRead := by
  unfold Xfer.runWriterAt; split <;> [split; skip] <;> rfl
@[simp] theorem runWriterAt_percentages : (s.runWriterAt f t).percentages = s.percentages := by
  unfold Xfer.runWriterAt; split <;> [split; skip] <;> rfl
@[simp] theorem runWriterAt_status : (s.runWriterAt f t).status = s.status := by
  unfold Xfer.runWriterAt; split <;> [split; skip] <;> rfl
@[simp] theorem joinWriter_inStream : (s.joinWriter f).inStream = s.inStream := by
  unfold Xfer.joinWriter; split <;> [split; skip] <;> rfl
@[simp] theorem joinWriter_totalRead : (s.joinWriter f).totalRead = s.totalRead := by
  unfold Xfer.joinWriter; split <;> [split; skip] <;> rfl
@[simp] theorem joinWriter_percentages : (s.joinWriter f).percentages = s.percentages := by
  unfold Xfer.joinWriter; split <;> [split; skip] <;> rfl
@[simp] theorem joinWriter_status : (s.joinWriter f).status = s.status := by
  unfold Xfer.joinWriter; split <;> [split; skip] <;> rfl
end writer

theorem OStream.write_clean {f : Nat → Bool} (hf : ∀ k, f k = false) {o : OStream}
    (ho : o.clean) (bytes : List Nat) : (OStream.write f o bytes).clean := by
  obtain ⟨hb, hfb⟩ := ho
  simp [OStream.write, OStream.clean, hb, hfb, hf]

theorem runWriter_clean {f : Nat → Bool} (hf : ∀ k, f k = false) {s : Xfer}
    (ho : s.outStream.clean) (wr : Writer) : (s.runWriter f wr).outStream.clean :=
  OStream.write_clean hf ho _

theorem runWriterAt_clean {f : Nat → Bool} (hf : ∀ k, f k = false) {s : Xfer}
    (ho : s.outStream.clean) (t : WriteTiming) : (s.runWriterAt f t).outStream.clean := by
  unfold Xfer.runWriterAt
  split
  · split
    · exact runWriter_clean hf ho _
    · exact ho
  · exact ho

theorem joinWriter_clean {f : Nat → Bool} (hf : ∀ k, f k = false) {s : Xfer}
    (ho : s.outStream.clean) : (s.joinWriter f).outStream.clean := by
  unfold Xfer.joinWriter
  split
  · split
    · exact runWriter_clean hf ho _
    · exact ho
  · exact ho

@[simp] theorem readChunk_outStream (c : Consts) (s : Xfer) :
    (s.readChunk c).outStream = s.outStream := rfl
@[simp] theorem readChunk_percentages (c : Consts) (s : Xfer) :
    (s.readChunk c).percentages = s.percentages := rfl
@[simp] theorem readChunk_status (c : Consts) (s : Xfer) :
    (s.readChunk c).status = s.status := rfl
@[simp] theorem readChunk_totalRead (c : Consts) (s : Xfer) :
    (s.readChunk c).totalRead =
      s.totalRead + (s.inStream.data.take c.KANKI_BUFSIZE_MAX).length := rfl
@[simp] theorem readChunk_data (c : Consts) (s : Xfer) :
    (s.readChunk c).inStream.data = s.inStream.data.drop c.KANKI_BUFSIZE_MAX := rfl
@[simp] theorem readChunk_failbit (c : Consts) (s : Xfer) :
    (s.readChunk c).inStream.failbit =
      decide ((s.inStream.data.take c.KANKI_BUFSIZE_MAX).length < c.KANKI_BUFSIZE_MAX) := rfl

@[simp] theorem launchAndReport_inStream (c : Consts) (w : World) (sz : Int) (s : Xfer) :
    (s.launchAndReport c w sz).inStream = s.inStream := by
  simp [Xfer.launchAndReport]
@[simp] theorem launchAndReport_totalRead (c : Consts) (w : World) (sz : Int) (s : Xfer) :
    (s.launchAndReport c w sz).totalRead = s.totalRead := by
  simp [Xfer.launchAndReport]
@[simp] theorem launchAndReport_status (c : Consts) (w : World) (sz : Int) (s : Xfer) :
    (s.launchAndReport c w sz).status = s.status := by
  simp [Xfer.launchAndReport]
@[simp] theorem launchAndReport_percentages (c : Consts) (w : World) (sz : Int) (s : Xfer) :
    (s.launchAndReport c w sz).percentages = s.percentages ++ [percentage s.totalRead sz] := by
  simp [Xfer.launchAndReport]
theorem launchAndReport_clean (c : Consts) (w : World) (sz : Int)
    (hw : ∀ k, w.writeFails k = false) {s : Xfer} (ho : s.outStream.clean) :
    (s.launchAndReport c w sz).outStream.clean := by
  simp only [Xfer.launchAndReport]
  exact runWriterAt_clean hw
    (s := { s with writer := some { buffer := s.buffer, timing := w.timing s.iter, done := false } })
    ho _

/-- With no write failing the loop ends without a write error, and in every
iteration it appends the `percentage` of the `totalRead` of that iteration:
chunk after chunk of `__KANKI_BUFSIZE_MAX` bytes, the last one shorter. -/
theorem transferLoop_percentages (c : Consts) (w : World) (objSize : Int)
    (hmax : 0 < c.KANKI_BUFSIZE_MAX) (hw : ∀ k, w.writeFails k = false) :
    ∀ (fuel : Nat) (s : Xfer), s.outStream.clean →
      (s.inStream.failbit = true → 1 ≤ fuel) →
      (s.inStream.failbit = false → s.inStream.data.length + 2 ≤ fuel) →
      ∃ s', transferLoop c w objSize fuel s = some s' ∧
        s'.status = s.status ∧ s'.outStream.clean ∧
        s'.totalRead =
          (if s.inStream.failbit then s.totalRead
           else s.totalRead + s.inStream.data.length) ∧
        s'.percentages = s.percentages ++
          (if s.inStream.failbit then []
           else (List.range (s.inStream.data.length / c.KANKI_BUFSIZE_MAX + 1)).map
             (fun i => percentage
               (min (s.totalRead + (i + 1) * c.KANKI_BUFSIZE_MAX)
                 (s.totalRead + s.inStream.data.length)) objSize)) := by
  intro fuel
  induction fuel with
  | zero =>
    intro s _ h1 h2
    cases hfb : s.inStream.failbit
    · have := h2 hfb; omega
    · have := h1 hfb; omega
  | succ fuel ih =>
    intro s hclean h1 h2
    cases hfb : s.inStream.failbit
    · -- one more iteration
      have hlen := h2 hfb
      have hok : s.outStream.ok = true := by
        simp [OStream.ok, hclean.1, hclean.2]
      have hc1 : ((s.runWriterAt w.writeFails WriteTiming.afterCheck).readChunk c
          |>.joinWriter w.writeFails).outStream.clean :=
        joinWriter_clean hw (s := (s.runWriterAt w.writeFails WriteTiming.afterCheck).readChunk c)
          (runWriterAt_clean hw hclean _)
      rw [transferLoop]
      simp only [hfb, hok, hc1.1, Bool.not_false, Bool.and_self, Bool.not_true, Bool.and_false,
        if_false, Bool.false_eq_true]
      have hc2 := launchAndReport_clean c w objSize hw hc1
      have htake : (s.inStream.data.take c.KANKI_BUFSIZE_MAX).length =
          min c.KANKI_BUFSIZE_MAX s.inStream.data.length := List.length_take _ _
      obtain ⟨s', hrun, hst, hcl, htr, hp⟩ :=
        ih _ hc2
          (by
            intro _
            omega)
          (by
            simp only [launchAndReport_inStream, joinWriter_inStream, readChunk_failbit,
              readChunk_data, runWriterAt_inStream, decide_eq_false_iff_not, List.length_drop]
            intro hfull
            rw [htake] at hfull
            omega)
      simp only [launchAndReport_totalRead, launchAndReport_inStream, joinWriter_totalRead,
        joinWriter_inStream, readChunk_totalRead, readChunk_data, runWriterAt_totalRead,
        runWriterAt_inStream, launchAndReport_status, joinWriter_status, readChunk_status,
        runWriterAt_status, launchAndReport_percentages, joinWriter_percentages,
        readChunk_percentages, runWriterAt_percentages, readChunk_failbit, List.length_drop,
        htake] at hst hp htr
      by_cases hshort : s.inStream.data.length < c.KANKI_BUFSIZE_MAX
      · have hmin : min c.KANKI_BUFSIZE_MAX s.inStream.data.length =
            s.inStream.data.length := by omega
        have hdiv : s.inStream.data.length / c.KANKI_BUFSIZE_MAX = 0 :=
          Nat.div_eq_of_lt hshort
        have hmin2 : min (s.totalRead + c.KANKI_BUFSIZE_MAX)
            (s.totalRead + s.inStream.data.length) = s.totalRead + s.inStream.data.length := by
          omega
        rw [hmin] at htr hp
        simp only [hshort, decide_True, if_true, List.append_nil] at htr hp
        refine ⟨s', hrun, hst, hcl, by simpa using htr, ?_⟩
        rw [hp, hdiv]
        simp [List.range_succ, hmin2]
      · have hmin : min c.KANKI_BUFSIZE_MAX s.inStream.data.length =
            c.KANKI_BUFSIZE_MAX := by omega
        have hge : c.KANKI_BUFSIZE_MAX ≤ s.inStream.data.length := by omega
        have hdiv : s.inStream.data.length / c.KANKI_BUFSIZE_MAX =
            (s.inStream.data.length - c.KANKI_BUFSIZE_MAX) / c.KANKI_BUFSIZE_MAX + 1 := by
          rw [← Nat.add_div_right _ hmax, Nat.sub_add_cancel hge]
        have hmin2 : min (s.totalRead + c.KANKI_BUFSIZE_MAX)
            (s.totalRead + s.inStream.data.length) = s.totalRead + c.KANKI_BUFSIZE_MAX := by
          omega
        rw [hmin] at htr hp
        simp only [lt_irrefl, decide_False, Bool.false_eq_true, if_false] at htr hp
        refine ⟨s', hrun, hst, hcl, ?_, ?_⟩
        · rw [htr]
          omega
        · rw [hp, hdiv]
          simp only [Bool.false_eq_true, if_false, List.append_assoc, List.singleton_append]
          rw [List.range_succ_eq_map ((s.inStream.data.length - c.KANKI_BUFSIZE_MAX) /
            c.KANKI_BUFSIZE_MAX + 1), List.map_cons, List.map_map]
          congr 2
          · simp [hmin2]
          · apply List.map_congr_left
            intro i _
            simp only [Function.comp_apply, Nat.succ_eq_add_one]
            congr 2
            · rw [Nat.add_mul (i + 1) 1]
              omega
            · omega
    · refine ⟨s, by simp [transferLoop, hfb], rfl, hclean, by simp, by simp⟩

/-! ## Lemmas on the enumeration order and on `run` -/

theorem InDir.trans {p q r : List Char} (h1 : InDir p q) (h2 : InDir q r) : InDir p r := by
  obtain ⟨t, rfl⟩ := h1
  obtain ⟨u, rfl⟩ := h2
  exact ⟨t ++ '/' :: u, by simp⟩

theorem InDir.dstPathOf {p q : List Char} (h : InDir p q) (destPath basePath : List Char)
    (hlen : basePath.length ≤ p.length) :
    InDir (dstPathOf destPath basePath p) (dstPathOf destPath basePath q) := by
  obtain ⟨t, rfl⟩ := h
  refine ⟨t, ?_⟩
  simp only [Kanki.dstPathOf, List.append_assoc]
  rw [List.drop_append_of_le_length hlen]

mutual
theorem map_snd_descendantsIn : ∀ (n : RodsNode) (anc : List RodsObjEntry),
    (descendantsIn anc n).map Prod.snd = descendants n
  | .node entry rc children, anc => by
    unfold descendantsIn descendants
    by_cases hc : entry.objType = COLL_OBJ_T
    · simp only [hc, if_true]
      exact map_snd_descendantsInList children _
    · simp [hc]
theorem map_snd_descendantsInList : ∀ (cs : List RodsNode) (anc : List RodsObjEntry),
    (descendantsInList anc cs).map Prod.snd = descendantsOfList cs
  | [], anc => by
    unfold descendantsInList descendantsOfList
    rfl
  | c :: cs, anc => by
    unfold descendantsInList descendantsOfList
    simp [map_snd_descendantsIn c anc, map_snd_descendantsInList cs anc]
end

theorem map_snd_preorderWithAncestors (root : RodsNode) :
    (preorderWithAncestors root).map Prod.snd = preorder root := by
  simp [preorderWithAncestors, preorder, map_snd_descendantsIn]

/-- Where an element of `l₁ ++ l₂` sits. -/
theorem append_eq_split {α : Type} {l₁ l₂ a₁ a₂ : List α} {x : α}
    (h : l₁ ++ l₂ = a₁ ++ x :: a₂) :
    (∃ m, l₁ = a₁ ++ x :: m ∧ a₂ = m ++ l₂) ∨ (∃ m, a₁ = l₁ ++ m ∧ l₂ = m ++ x :: a₂) := by
  rcases List.append_eq_append_iff.mp h with ⟨m, h1, h2⟩ | ⟨m, h1, h2⟩
  · exact Or.inr ⟨m, h1, h2⟩
  · cases m with
    | nil =>
      refine Or.inr ⟨[], by simpa using h1.symm, by simpa using h2.symm⟩
    | cons y m =>
      simp only [List.cons_append, List.cons.injEq] at h2
      obtain ⟨rfl, rfl⟩ := h2
      exact Or.inl ⟨m, h1, rfl⟩

mutual
/-- In the annotated flattening below a node, every ancestor of an entry is
one of the ancestors of the node, the node itself, or a collection that
comes earlier in the flattening. -/
theorem ancestors_before : ∀ (n : RodsNode) (anc : List RodsObjEntry)
    (A₁ A₂ : List (List RodsObjEntry × RodsObjEntry)) (anc' : List RodsObjEntry)
    (e : RodsObjEntry), descendantsIn anc n = A₁ ++ (anc', e) :: A₂ →
    ∀ a ∈ anc', a ∈ anc ∨
      (a.objType = COLL_OBJ_T ∧ (a = n.entry ∨ a ∈ A₁.map Prod.snd))
  | .node entry rc children, anc, A₁, A₂, anc', e, h => by
    unfold descendantsIn at h
    by_cases hc : entry.objType = COLL_OBJ_T
    · simp only [hc, if_true] at h
      intro a ha
      rcases ancestors_before_list children _ A₁ A₂ anc' e h a ha with h1 | h1
      · rcases List.mem_append.mp h1 with h2 | h2
        · exact Or.inl h2
        · simp only [List.mem_singleton] at h2
          subst h2
          exact Or.inr ⟨hc, Or.inl rfl⟩
      · exact Or.inr ⟨h1.1, Or.inr h1.2⟩
    · simp only [hc, if_false] at h
      simp at h
theorem ancestors_before_list : ∀ (cs : List RodsNode) (anc : List RodsObjEntry)
    (A₁ A₂ : List (List RodsObjEntry × RodsObjEntry)) (anc' : List RodsObjEntry)
    (e : RodsObjEntry), descendantsInList anc cs = A₁ ++ (anc', e) :: A₂ →
    ∀ a ∈ anc', a ∈ anc ∨ (a.objType = COLL_OBJ_T ∧ a ∈ A₁.map Prod.snd)
  | [], anc, A₁, A₂, anc', e, h => by
    unfold descendantsInList at h
    simp at h
  | c :: cs, anc, A₁, A₂, anc', e, h => by
    unfold descendantsInList at h
    intro a ha
    cases A₁ with
    | nil =>
      simp only [List.nil_append, List.cons.injEq, Prod.mk.injEq] at h
      obtain ⟨⟨rfl, _⟩, _⟩ := h
      exact Or.inl ha
    | cons x A₁ =>
      simp only [List.cons_append, List.cons.injEq] at h
      obtain ⟨rfl, h⟩ := h
      rcases append_eq_split h with ⟨m, h1, _⟩ | ⟨m, h1, h2⟩
      · rcases ancestors_before c anc A₁ m anc' e h1 a ha with h3 | ⟨h3, h4⟩
        · exact Or.inl h3
        · refine Or.inr ⟨h3, ?_⟩
          rcases h4 with rfl | h4
          · simp
          · simp only [List.map_cons, List.mem_cons]
            exact Or.inr h4
      · rcases ancestors_before_list cs anc m A₂ anc' e h2 a ha with h3 | ⟨h3, h4⟩
        · exact Or.inl h3
        · refine Or.inr ⟨h3, ?_⟩
          subst h1
          simp only [List.map_cons, List.map_append, List.mem_cons, List.mem_append]
          exact Or.inr (Or.inr h4)
end

theorem preorder_ancestors_before (root : RodsNode)
    (A₁ A₂ : List (List RodsObjEntry × RodsObjEntry)) (anc : List RodsObjEntry)
    (e : RodsObjEntry) (h : preorderWithAncestors root = A₁ ++ (anc, e) :: A₂) :
    ∀ a ∈ anc, a.objType = COLL_OBJ_T ∧ a ∈ A₁.map Prod.snd := by
  unfold preorderWithAncestors at h
  intro a ha
  cases A₁ with
  | nil =>
    simp only [List.nil_append, List.cons.injEq, Prod.mk.injEq] at h
    obtain ⟨⟨rfl, _⟩, _⟩ := h
    simp at ha
  | cons x A₁ =>
    simp only [List.cons_append, List.cons.injEq] at h
    obtain ⟨rfl, h⟩ := h
    rcases ancestors_before root [] A₁ A₂ anc e h a ha with h3 | ⟨h3, h4⟩
    · simp at h3
    · refine ⟨h3, ?_⟩
      rcases h4 with rfl | h4
      · simp
      · simp only [List.map_cons, List.mem_cons]
        exact Or.inr h4

mutual
/-- In a tree with nested paths, the full path of an entry below a node lies
in the full path of the node and in the full path of each of its ancestors
from the node downwards. -/
theorem nested_ancestors : ∀ (n : RodsNode) (anc : List RodsObjEntry)
    (A₁ A₂ : List (List RodsObjEntry × RodsObjEntry)) (anc' : List RodsObjEntry)
    (e : RodsObjEntry), descendantsIn anc n = A₁ ++ (anc', e) :: A₂ → pathsNested n = true →
    InDir n.entry.getObjectFullPath e.getObjectFullPath ∧
    ∀ a ∈ anc', a ∈ anc ∨
      ((a = n.entry ∨ InDir n.entry.getObjectFullPath a.getObjectFullPath) ∧
        InDir a.getObjectFullPath e.getObjectFullPath)
  | .node entry rc children, anc, A₁, A₂, anc', e, h, hn => by
    unfold descendantsIn at h
    unfold pathsNested at hn
    by_cases hc : entry.objType = COLL_OBJ_T
    · simp only [hc, if_true] at h hn
      obtain ⟨h1, h2⟩ := nested_ancestors_list children _ _ A₁ A₂ anc' e h hn
      refine ⟨h1, ?_⟩
      intro a ha
      rcases h2 a ha with h3 | h3
      · rcases List.mem_append.mp h3 with h4 | h4
        · exact Or.inl h4
        · simp only [List.mem_singleton] at h4
          subst h4
          exact Or.inr ⟨Or.inl rfl, h1⟩
      · exact Or.inr ⟨Or.inr h3.1, h3.2⟩
    · simp only [hc, if_false] at h
      simp at h
theorem nested_ancestors_list : ∀ (cs : List RodsNode) (parent : List Char)
    (anc : List RodsObjEntry)
    (A₁ A₂ : List (List RodsObjEntry × RodsObjEntry)) (anc' : List RodsObjEntry)
    (e : RodsObjEntry), descendantsInList anc cs = A₁ ++ (anc', e) :: A₂ →
    pathsNestedList parent cs = true →
    InDir parent e.getObjectFullPath ∧
    ∀ a ∈ anc', a ∈ anc ∨
      (InDir parent a.getObjectFullPath ∧ InDir a.getObjectFullPath e.getObjectFullPath)
  | [], parent, anc, A₁, A₂, anc', e, h, _ => by
    unfold descendantsInList at h
    simp at h
  | c :: cs, parent, anc, A₁, A₂, anc', e, h, hn => by
    unfold descendantsInList at h
    unfold pathsNestedList at hn
    simp only [Bool.and_eq_true, decide_eq_true_eq] at hn
    obtain ⟨⟨hpc, hnc⟩, hncs⟩ := hn
    cases A₁ with
    | nil =>
      simp only [List.nil_append, List.cons.injEq, Prod.mk.injEq] at h
      obtain ⟨⟨rfl, rfl⟩, _⟩ := h
      exact ⟨hpc, fun a ha => Or.inl ha⟩
    | cons x A₁ =>
      simp only [List.cons_append, List.cons.injEq] at h
      obtain ⟨rfl, h⟩ := h
      rcases append_eq_split h with ⟨m, h1, _⟩ | ⟨m, _, h2⟩
      · obtain ⟨h3, h4⟩ := nested_ancestors c anc A₁ m anc' e h1 hnc
        refine ⟨hpc.trans h3, ?_⟩
        intro a ha
        rcases h4 a ha with h5 | ⟨h5, h6⟩
        · exact Or.inl h5
        · refine Or.inr ⟨?_, h6⟩
          rcases h5 with rfl | h5
          · exact hpc
          · exact hpc.trans h5
      · exact nested_ancestors_list cs parent anc m A₂ anc' e h2 hncs
end

mutual
/-- A walk returning a non-negative status has appended exactly the entries
below the node, in pre-order. -/
theorem makeCollObjList_objs_of_nonneg : ∀ (n : RodsNode) (w : Walk),
    0 ≤ (makeCollObjList n w).1 → (makeCollObjList n w).2.objs = w.objs ++ descendants n
  | .node entry rc children, w => by
    unfold makeCollObjList descendants
    by_cases hc : entry.objType = COLL_OBJ_T
    · simp only [hc, if_true]
      by_cases hrc : rc ≥ 0
      · simp only [hrc, if_true]
        exact collLoop_objs_of_nonneg children rc _
      · rw [if_neg hrc]
        intro h
        exact absurd h hrc
    · simp [hc]
theorem collLoop_objs_of_nonneg : ∀ (cs : List RodsNode) (st : Int) (w : Walk),
    0 ≤ (collLoop cs st w).1 → (collLoop cs st w).2.objs = w.objs ++ descendantsOfList cs
  | [], st, w => by
    unfold collLoop descendantsOfList
    simp
  | c :: cs, st, w => by
    unfold collLoop descendantsOfList
    by_cases hc : c.entry.objType = COLL_OBJ_T
    · simp only [hc, if_true]
      by_cases hneg : (makeCollObjList c
        ⟨w.objs ++ [c.entry], w.events ++ [Event.push_back c.entry,
          Event.progressMarquee (StatusStr.buildingList (w.objs ++ [c.entry]).length)]⟩).1 < 0
      · simp only [hneg, if_true]
        intro h
        omega
      · simp only [hneg, if_false]
        intro h
        rw [collLoop_objs_of_nonneg cs _ _ h, makeCollObjList_objs_of_nonneg c _ (not_lt.mp hneg)]
        simp
    · simp only [hc, if_false]
      intro h
      rw [collLoop_objs_of_nonneg cs _ _ h, descendants_of_not_coll hc]
      simp
end

mutual
/-- The walk hands no job to the thread pool. -/
theorem makeCollObjList_isPost : ∀ (n : RodsNode) (w : Walk) (ev : Event),
    ev ∈ (makeCollObjList n w).2.events → ev.isPost = true → ev ∈ w.events
  | .node entry rc children, w, ev => by
    unfold makeCollObjList
    by_cases hc : entry.objType = COLL_OBJ_T
    · simp only [hc, if_true]
      by_cases hrc : rc ≥ 0
      · simp only [hrc, if_true]
        intro h hp
        have := collLoop_isPost children rc _ ev h hp
        rcases List.mem_append.mp this with h1 | h1
        · exact h1
        · simp only [List.mem_singleton] at h1
          subst h1
          simp [Event.isPost] at hp
      · simp only [hrc, if_false]
        intro h hp
        rcases List.mem_append.mp h with h1 | h1
        · exact h1
        · simp only [List.mem_singleton] at h1
          subst h1
          simp [Event.isPost] at hp
    · simp only [hc, if_false]
      exact fun h _ => h
theorem collLoop_isPost : ∀ (cs : List RodsNode) (st : Int) (w : Walk) (ev : Event),
    ev ∈ (collLoop cs st w).2.events → ev.isPost = true → ev ∈ w.events
  | [], st, w, ev => by
    unfold collLoop
    exact fun h _ => h
  | c :: cs, st, w, ev => by
    unfold collLoop
    have hstep : ev ∈ w.events ++ [Event.push_back c.entry,
          Event.progressMarquee (StatusStr.buildingList (w.objs ++ [c.entry]).length)] →
        ev.isPost = true → ev ∈ w.events := by
      intro h hp
      rcases List.mem_append.mp h with h1 | h1
      · exact h1
      · simp only [List.mem_cons, List.mem_singleton, List.not_mem_nil, or_false] at h1
        rcases h1 with rfl | rfl <;> simp [Event.isPost] at hp
    by_cases hc : c.entry.objType = COLL_OBJ_T
    · simp only [hc, if_true]
      by_cases hneg : (makeCollObjList c
        ⟨w.objs ++ [c.entry], w.events ++ [Event.push_back c.entry,
          Event.progressMarquee (StatusStr.buildingList (w.objs ++ [c.entry]).length)]⟩).1 < 0
      · simp only [hneg, if_true]
        intro h hp
        exact hstep (makeCollObjList_isPost c _ ev h hp) hp
      · simp only [hneg, if_false]
        intro h hp
        exact hstep (makeCollObjList_isPost c _ ev (collLoop_isPost cs _ _ ev h hp) hp) hp
    · simp only [hc, if_false]
      intro h hp
      exact hstep (collLoop_isPost cs _ _ ev h hp) hp
end

/-- With a positive chunk size the transfer loop ends within
`length + 2` evaluations of its condition. -/
theorem transferLoop_returns (c : Consts) (w : World) (objSize : Int)
    (hmax : 0 < c.KANKI_BUFSIZE_MAX) :
    ∀ (fuel : Nat) (s : Xfer), 1 ≤ fuel →
      (s.inStream.failbit = false → s.inStream.data.length + 2 ≤ fuel) →
      ∃ s', transferLoop c w objSize fuel s = some s' := by
  intro fuel
  induction fuel with
  | zero => intro s h1; omega
  | succ fuel ih =>
    intro s _ h2
    rw [transferLoop]
    by_cases hexit : (!(!s.inStream.failbit && s.outStream.ok)) = true
    · exact ⟨s, by rw [if_pos hexit]⟩
    · rw [if_neg hexit]
      simp only [Bool.not_eq_true', Bool.not_eq_false, Bool.and_eq_true,
        Bool.not_eq_true'] at hexit
      have hlen := h2 hexit.1
      simp only
      split
      · exact ⟨_, rfl⟩
      · have htake : (s.inStream.data.take c.KANKI_BUFSIZE_MAX).length =
            min c.KANKI_BUFSIZE_MAX s.inStream.data.length := List.length_take _ _
        apply ih
        · omega
        · simp only [launchAndReport_inStream, joinWriter_inStream, readChunk_failbit,
            readChunk_data, runWriterAt_inStream, decide_eq_false_iff_not, List.length_drop]
          intro hfull
          rw [htake] at hfull
          omega

/-- With a positive chunk size `transferFileStream` returns. -/
theorem transferFileStream_returns (c : Consts) (w : World) (obj : RodsObjEntry)
    (inStream : IStream) (outStream : OStream) (hmax : 0 < c.KANKI_BUFSIZE_MAX) :
    ∃ s, transferFileStream c w obj inStream outStream = some s := by
  obtain ⟨s', hs'⟩ := transferLoop_returns c w obj.objSize hmax (inStream.data.length + 2)
    (Xfer.init c inStream outStream) (by omega) (fun _ => le_refl _)
  exact ⟨_, by simp only [transferFileStream]; rw [hs']⟩

/-- With a positive chunk size `downloadFile` returns. -/
theorem downloadFile_returns (c : Consts) (w : World) (fs : Fs) (obj : RodsObjEntry)
    (localPath : List Char) (verifyChecksum allowOverwrite : Bool)
    (hmax : 0 < c.KANKI_BUFSIZE_MAX) :
    ∃ d, downloadFile c w fs obj localPath verifyChecksum allowOverwrite = some d := by
  unfold downloadFile
  simp only
  split
  · exact ⟨_, rfl⟩
  · split
    · exact ⟨_, rfl⟩
    · split
      · exact ⟨_, rfl⟩
      · rename_i bytes _ _
        obtain ⟨s, hs⟩ := transferFileStream_returns c w obj ⟨bytes, false⟩
          ⟨[], false, false, 0⟩ hmax
        rw [hs]
        exact ⟨_, rfl⟩

/-- With a positive chunk size `run` returns. -/
theorem run_returns (c : Consts) (w : World) (fs : Fs) (root : RodsNode) (destPath : List Char)
    (verify overwrite : Bool) (hmax : 0 < c.KANKI_BUFSIZE_MAX) :
    ∃ r, run c w fs root destPath verify overwrite = some r := by
  unfold run
  simp only
  split
  · exact ⟨_, rfl⟩
  · split
    · exact ⟨_, rfl⟩
    · split
      · split <;> exact ⟨_, rfl⟩
      · split
        · obtain ⟨d, hd⟩ := downloadFile_returns c w fs root.entry
            (destPath ++ "/".toList ++ root.entry.getObjectName) verify overwrite hmax
          rw [hd]
          exact ⟨_, rfl⟩
        · exact ⟨_, rfl⟩

/-! ## The copy when every write is prompt -/

/-- One iteration of the loop keeps `CopyInv` when no write fails and no write
is delayed past the next assignment to `lastRead`; no write error is seen at
the join. -/
theorem copy_step (c : Consts) (w : World) (objSize : Int) (src : List Nat)
    (hw : ∀ k, w.writeFails k = false) (ht : ∀ i, w.timing i ≠ WriteTiming.atJoin)
    (s : Xfer) (hinv : CopyInv src s) :
    (((s.runWriterAt w.writeFails WriteTiming.afterCheck).readChunk c).joinWriter
        w.writeFails).outStream.badbit = false ∧
    CopyInv src ((((s.runWriterAt w.writeFails WriteTiming.afterCheck).readChunk c).joinWriter
        w.writeFails).launchAndReport c w objSize) := by
  obtain ⟨⟨hb, hf⟩, hsrc, htot, _, hdue⟩ := hinv
  have htim : w.timing s.iter = WriteTiming.atLaunch ∨ w.timing s.iter = WriteTiming.afterCheck := by
    have := ht s.iter
    cases h : w.timing s.iter <;> simp_all
  obtain ⟨inS, outS, mem, buffer, buffer2, status, lastRead, totalRead, writer, iter, pcts, evs⟩ := s
  obtain ⟨written, badbit, failbit, writes⟩ := outS
  simp only at hb hf hsrc htot hdue htim
  subst hb hf
  cases writer with
  | none =>
    simp only [Xfer.pending, List.append_nil] at hsrc htot
    rcases htim with htim | htim <;>
      simp [Xfer.runWriterAt, Xfer.readChunk, Xfer.joinWriter, Xfer.launchAndReport,
        Xfer.runWriter, OStream.write, CopyInv, OStream.clean, Xfer.pending, htim, hw,
        ← hsrc, htot, List.take_append_drop] <;> omega
  | some wr =>
    obtain ⟨wbuf, wtim, wdone⟩ := wr
    cases wdone with
    | true =>
      simp only [Xfer.pending, if_true, List.append_nil] at hsrc htot
      rcases htim with htim | htim <;>
        simp [Xfer.runWriterAt, Xfer.readChunk, Xfer.joinWriter, Xfer.launchAndReport,
          Xfer.runWriter, OStream.write, CopyInv, OStream.clean, Xfer.pending, htim, hw,
          ← hsrc, htot, List.take_append_drop] <;> omega
    | false =>
      have hwt : wtim = WriteTiming.afterCheck := hdue _ rfl rfl
      subst hwt
      simp only [Xfer.pending, Bool.false_eq_true, if_false] at hsrc htot
      rcases htim with htim | htim <;>
        simp [Xfer.runWriterAt, Xfer.readChunk, Xfer.joinWriter, Xfer.launchAndReport,
          Xfer.runWriter, OStream.write, CopyInv, OStream.clean, Xfer.pending, htim, hw,
          ← hsrc, htot, List.take_append_drop] <;> omega

/-- Under the same conditions the loop ends with `CopyInv` and nothing left
unread. -/
theorem transferLoop_copy (c : Consts) (w : World) (objSize : Int) (src : List Nat)
    (hmax : 0 < c.KANKI_BUFSIZE_MAX) (hw : ∀ k, w.writeFails k = false)
    (ht : ∀ i, w.timing i ≠ WriteTiming.atJoin) :
    ∀ (fuel : Nat) (s : Xfer), CopyInv src s → 1 ≤ fuel →
      (s.inStream.failbit = false → s.inStream.data.length + 2 ≤ fuel) →
      ∃ s', transferLoop c w objSize fuel s = some s' ∧ CopyInv src s' ∧
        s'.inStream.data = [] ∧ s'.status = s.status := by
  intro fuel
  induction fuel with
  | zero => intro s _ h1; omega
  | succ fuel ih =>
    intro s hinv _ h2
    rw [transferLoop]
    have hok : s.outStream.ok = true := by
      simp [OStream.ok, hinv.1.1, hinv.1.2]
    cases hfb : s.inStream.failbit
    · have hlen := h2 hfb
      obtain ⟨hbad, hinv'⟩ := copy_step c w objSize src hw ht s hinv
      simp only [hfb, hok, hbad, Bool.not_false, Bool.and_self, Bool.not_true, Bool.and_false,
        if_false, Bool.false_eq_true]
      have htake : (s.inStream.data.take c.KANKI_BUFSIZE_MAX).length =
          min c.KANKI_BUFSIZE_MAX s.inStream.data.length := List.length_take _ _
      obtain ⟨s', hrun, hi, hd, hst⟩ := ih _ hinv' (by omega)
        (by
          simp only [launchAndReport_inStream, joinWriter_inStream, readChunk_failbit,
            readChunk_data, runWriterAt_inStream, decide_eq_false_iff_not, List.length_drop]
          intro hfull
          rw [htake] at hfull
          omega)
      refine ⟨s', hrun, hi, hd, ?_⟩
      simpa using hst
    · refine ⟨s, by simp [hfb], hinv, hinv.2.2.2.1 hfb, rfl⟩

/-- When no write fails and every write takes effect before the main thread
assigns `lastRead` again, `transferFileStream` copies the source: it returns
status 0, the local stream holds exactly the source bytes, and `totalRead` is
their number. -/
theorem transferFileStream_copies_when_writes_are_prompt (c : Consts) (w : World)
    (obj : RodsObjEntry) (src : List Nat) (hmax : 0 < c.KANKI_BUFSIZE_MAX)
    (hw : ∀ k, w.writeFails k = false) (ht : ∀ i, w.timing i ≠ WriteTiming.atJoin) :
    ∃ s, transferFileStream c w obj ⟨src, false⟩ ⟨[], false, false, 0⟩ = some s ∧
      s.status = 0 ∧ s.outStream.written = src ∧ s.totalRead = src.length := by
  have hinit : CopyInv src (Xfer.init c ⟨src, false⟩ ⟨[], false, false, 0⟩) := by
    simp [CopyInv, Xfer.init, OStream.clean, Xfer.pending]
  obtain ⟨s', hrun, hinv, hd, hst⟩ := transferLoop_copy c w obj.objSize src hmax hw ht
    (src.length + 2) _ hinit (by omega) (fun _ => le_refl _)
  refine ⟨{ s'.joinWriter w.writeFails with writer := none }, ?_, ?_, ?_, ?_⟩
  · simp only [transferFileStream]
    rw [hrun]
  · simpa [Xfer.init] using hst
  · obtain ⟨⟨hb, hf⟩, hsrc, _, _, _⟩ := hinv
    rw [hd, List.append_nil] at hsrc
    rw [← hsrc]
    unfold Xfer.joinWriter Xfer.pending
    cases hwr : s'.writer with
    | none => simp
    | some wr =>
      cases hdone : wr.done <;>
        simp [Xfer.runWriter, OStream.write, hb, hf, hw, hdone]
  · obtain ⟨_, hsrc, htot, _, _⟩ := hinv
    rw [hd, List.append_nil] at hsrc
    simp only [joinWriter_totalRead]
    rw [htot, hsrc]

/-- The flag `verifyChecksum` has no influence on `downloadFile`. -/
theorem downloadFile_verifyChecksum_unused (c : Consts) (w : World) (fs : Fs) (obj : RodsObjEntry)
    (localPath : List Char) (allowOverwrite : Bool) :
    downloadFile c w fs obj localPath true allowOverwrite =
      downloadFile c w fs obj localPath false allowOverwrite := rfl

/-! ## Theorems on `makeCollObjList` -/

/-- Claim C3: when every listing of the tree succeeds, pushing the root and
calling `makeCollObjList` gives the depth-first pre-order flattening of the
tree; in that flattening every entry comes after each of its ancestors; and
for a root that is a data object nothing is appended, so the list is the
singleton holding the root. -/
theorem makeCollObjList_preorder (root : RodsNode) (evs : List Event)
    (h : listingsSucceed root = true) :
    (makeCollObjList root ⟨[root.entry], evs⟩).2.objs = preorder root ∧
    (preorderWithAncestors root).map Prod.snd = preorder root ∧
    (∀ A₁ anc e A₂, preorderWithAncestors root = A₁ ++ (anc, e) :: A₂ →
      ∀ a ∈ anc, a ∈ A₁.map Prod.snd) ∧
    (root.entry.objType = DATA_OBJ_T →
      (makeCollObjList root ⟨[root.entry], evs⟩).2.objs = [root.entry]) := by
  refine ⟨(makeCollObjList_objs root _ h).2, map_snd_preorderWithAncestors root, ?_, ?_⟩
  · intro A₁ anc e A₂ hsplit a ha
    exact (preorder_ancestors_before root A₁ A₂ anc e hsplit a ha).2
  · intro hd
    have hc : ¬ root.entry.objType = COLL_OBJ_T := by
      rw [hd]
      exact fun hx => ObjType.noConfusion hx
    rw [(makeCollObjList_objs root _ h).2, descendants_of_not_coll hc]
    rfl

/-- The statement of `makeCollObjList_preorder` at the tree `scenarioA`. -/
theorem makeCollObjList_preorder_witness :
    (makeCollObjList scenarioA ⟨[scenarioA.entry], []⟩).2.objs = preorder scenarioA ∧
    (preorderWithAncestors scenarioA).map Prod.snd = preorder scenarioA ∧
    (∀ A₁ anc e A₂, preorderWithAncestors scenarioA = A₁ ++ (anc, e) :: A₂ →
      ∀ a ∈ anc, a ∈ A₁.map Prod.snd) ∧
    (scenarioA.entry.objType = DATA_OBJ_T →
      (makeCollObjList scenarioA ⟨[scenarioA.entry], []⟩).2.objs = [scenarioA.entry]) :=
  makeCollObjList_preorder scenarioA [] (by decide)

/-- Claim C4: `makeCollObjList` returns a negative status exactly when one of
the `readColl` calls it made returned a negative status; the status returned
is then that of the first failing `readColl`, and that call is the last thing
the walk did: no `readColl` and no `push_back` follows it. -/
theorem makeCollObjList_failure_propagates (n : RodsNode) (w : Walk) :
    ∃ new, (makeCollObjList n w).2.events = w.events ++ new ∧
      (makeCollObjList n w).2.objs = w.objs ++ pushed new ∧
      ((makeCollObjList n w).1 < 0 ↔ ∃ p s, Event.readColl p s ∈ new ∧ s < 0) ∧
      ((makeCollObjList n w).1 < 0 → ∃ pre p,
          new = pre ++ [Event.readColl p (makeCollObjList n w).1] ∧
          ∀ q s, Event.readColl q s ∈ pre → 0 ≤ s) := by
  obtain ⟨new, he, ho, hcase⟩ := makeCollObjList_spec n w
  refine ⟨new, he, ho, ?_, ?_⟩
  · constructor
    · intro hneg
      rcases hcase with ⟨_, pre, p, hnew, _⟩ | ⟨hpos, _⟩
      · exact ⟨p, _, by simp [hnew], hneg⟩
      · omega
    · rintro ⟨p, s, hmem, hs⟩
      rcases hcase with ⟨hneg, _⟩ | ⟨_, hnf⟩
      · exact hneg
      · have := hnf p s hmem
        omega
  · intro hneg
    rcases hcase with ⟨_, pre, p, hnew, hpre⟩ | ⟨hpos, _⟩
    · exact ⟨pre, p, hnew, hpre⟩
    · omega

/-! ## Theorems on `downloadFile` -/

/-- Claim C2: when `localPath` exists and overwriting is not allowed,
`downloadFile` returns `OVERWRITE_WITHOUT_FORCE_FLAG` without any effect: no
stream is opened, nothing is read or written, and the filesystem is as
before. -/
theorem downloadFile_refuses_overwrite (c : Consts) (w : World) (fs : Fs) (obj : RodsObjEntry)
    (localPath : List Char) (verifyChecksum : Bool) (hexists : fs.pathExists localPath = true) :
    downloadFile c w fs obj localPath verifyChecksum false =
      some { status := c.OVERWRITE_WITHOUT_FORCE_FLAG, fs := fs, events := [] } := by
  simp [downloadFile, hexists]

/-- The statement of `downloadFile_refuses_overwrite` for the existing file
`/dst/fileA`. -/
theorem downloadFile_refuses_overwrite_witness :
    downloadFile exampleConsts quietWorld fsWithFileA (dataEntry "/zone/coll" "fileA" 3)
        "/dst/fileA".toList true false =
      some { status := exampleConsts.OVERWRITE_WITHOUT_FORCE_FLAG, fs := fsWithFileA,
             events := [] } :=
  downloadFile_refuses_overwrite exampleConsts quietWorld fsWithFileA
    (dataEntry "/zone/coll" "fileA" 3) "/dst/fileA".toList true (by decide)

/-- Claim C8 (the code does not do this): with `verifyChecksum` set, the
download of the same three bytes returns status 0 whichever of two different
checksums the server reports, so no checksum mismatch is ever returned. -/
theorem downloadFile_ignores_checksum :
    quietWorld.remoteChecksum "/zone/coll/fileA".toList ≠
      otherChecksumWorld.remoteChecksum "/zone/coll/fileA".toList ∧
    (downloadFile exampleConsts quietWorld emptyFs (dataEntry "/zone/coll" "fileA" 3)
        "/dst/fileA".toList true true).map
      (fun d => (d.status, d.fs.files "/dst/fileA".toList)) = some (0, some [1, 2, 3]) ∧
    (downloadFile exampleConsts otherChecksumWorld emptyFs (dataEntry "/zone/coll" "fileA" 3)
        "/dst/fileA".toList true true).map
      (fun d => (d.status, d.fs.files "/dst/fileA".toList)) = some (0, some [1, 2, 3]) := by
  decide

/-! ## Theorems on `transferFileStream` -/

/-- Claim C1 (the code does not do this): a source of three bytes, read in
chunks of two, with every write taking effect only at its `join`: the first
write then sees the `lastRead` of the second read, so the local stream
receives the two bytes 1, 3 although `totalRead` is 3 and the status is 0. -/
theorem transferFileStream_deferred_write_loses_bytes :
    (transferFileStream exampleConsts deferredWorld (dataEntry "/zone/coll" "fileA" 3)
        ⟨[1, 2, 3], false⟩ ⟨[], false, false, 0⟩).map
      (fun s => (s.status, s.totalRead, s.outStream.written)) = some (0, 3, [1, 3]) := by
  decide

/-- Claim C5 (the code does not do this): a source of one byte whose only
chunk write fails: the local stream ends with `badbit` set and nothing
written, and the status returned is 0, not `FILE_WRITE_ERR`. -/
theorem transferFileStream_last_write_failure_unreported :
    (transferFileStream exampleConsts failingDiskWorld (dataEntry "/zone/coll" "fileA" 1)
        ⟨[7], false⟩ ⟨[], false, false, 0⟩).map
      (fun s => (s.status, s.outStream.badbit, s.outStream.written, s.events)) =
      some (0, true, [], [Event.read 2 1, Event.write [7] false]) ∧
    exampleConsts.FILE_WRITE_ERR ≠ 0 := by
  decide

/-- Claim C9 as stated fails: for an object of 20 bytes read in chunks of
eleven the percentages computed are 56 and 100, while the ceilings of
`totalRead * 100 / objSize` in exact arithmetic, for the `totalRead` 11 and
20 of the two iterations, are 55 and 100, and 56 is the exact ceiling for no
`totalRead` at all: the quotient 0.55 and its product with 100 are rounded to
the nearest `double`, and the product exceeds 55. -/
theorem transferFileStream_percentage_not_exact :
    (transferFileStream elevenByteChunks quietWorld (dataEntry "/zone/coll" "fileA" 20)
        ⟨List.replicate 20 0, false⟩ ⟨[], false, false, 0⟩).map
      (fun s => (s.status, s.totalRead, s.percentages)) =
      some (0, 20, [some 56, some 100]) ∧
    [exactPercentage 11 20, exactPercentage 20 20] = [55, 100] ∧
    ∀ t : Nat, exactPercentage t 20 ≠ 56 := by
  refine ⟨by set_option maxRecDepth 8000 in decide, by decide, ?_⟩
  intro t h
  unfold exactPercentage at h
  rw [Int.fdiv_eq_ediv _ (by norm_num)] at h
  omega

/-- Claim C9, amended: for an object whose size is positive (and a 64-bit
value) and whose stream delivers exactly that many bytes, with no write
failing, `transferFileStream` returns; the percentage computed in iteration
`i` is the value, in `double` arithmetic, of
`ceil(((double)totalRead / (double)objSize) * 100)` for the `totalRead` of
that iteration; these values never decrease, never exceed 100, and the last
one is exactly 100. -/
theorem transferFileStream_percentages (c : Consts) (w : World) (obj : RodsObjEntry)
    (bytes : List Nat) (hmax : 0 < c.KANKI_BUFSIZE_MAX) (hsize : 0 < obj.objSize)
    (hrange : obj.objSize < 2 ^ 63) (hlen : (bytes.length : Int) = obj.objSize)
    (hw : ∀ k, w.writeFails k = false) :
    ∃ s, transferFileStream c w obj ⟨bytes, false⟩ ⟨[], false, false, 0⟩ = some s ∧
      s.status = 0 ∧ (s.totalRead : Int) = obj.objSize ∧
      s.percentages = (List.range (bytes.length / c.KANKI_BUFSIZE_MAX + 1)).map
        (fun i => percentage (min ((i + 1) * c.KANKI_BUFSIZE_MAX) bytes.length) obj.objSize) ∧
      ∃ ps : List Int, s.percentages = ps.map some ∧
        List.Sorted (· ≤ ·) ps ∧ (∀ p ∈ ps, p ≤ 100) ∧ ps.getLast? = some 100 := by
  obtain ⟨s', hrun, hst, _, htr, hp⟩ :=
    transferLoop_percentages c w obj.objSize hmax hw (bytes.length + 2)
      (Xfer.init c ⟨bytes, false⟩ ⟨[], false, false, 0⟩) ⟨rfl, rfl⟩
      (by simp [Xfer.init]) (by simp [Xfer.init])
  simp only [Xfer.init, Bool.false_eq_true, if_false, Nat.zero_add, List.nil_append]
    at hst htr hp
  have hnat : obj.objSize.natAbs = bytes.length := by omega
  have hpos : 0 < bytes.length := by omega
  have hform : ∀ i, percentage (min ((i + 1) * c.KANKI_BUFSIZE_MAX) bytes.length)
      obj.objSize = some ⌈(ratioTimes100
        (min ((i + 1) * c.KANKI_BUFSIZE_MAX) bytes.length) bytes.length).val⌉ := by
    intro i
    rw [percentage_of_pos hsize (by omega) hrange, hnat]
  have hmono : ∀ i j, i < j →
      ⌈(ratioTimes100 (min ((i + 1) * c.KANKI_BUFSIZE_MAX) bytes.length) bytes.length).val⌉ ≤
      ⌈(ratioTimes100 (min ((j + 1) * c.KANKI_BUFSIZE_MAX) bytes.length) bytes.length).val⌉ := by
    intro i j hij
    apply Int.ceil_mono
    apply ratioTimes100_mono hpos
    have : (i + 1) * c.KANKI_BUFSIZE_MAX ≤ (j + 1) * c.KANKI_BUFSIZE_MAX :=
      Nat.mul_le_mul_right _ (by omega)
    omega
  refine ⟨{ s'.joinWriter w.writeFails with writer := none }, ?_, ?_, ?_, ?_, ?_⟩
  · simp only [transferFileStream]
    rw [hrun]
  · simpa using hst
  · simp only [joinWriter_totalRead, htr]
    exact hlen
  · simpa using hp
  · refine ⟨(List.range (bytes.length / c.KANKI_BUFSIZE_MAX + 1)).map
      (fun i => ⌈(ratioTimes100
        (min ((i + 1) * c.KANKI_BUFSIZE_MAX) bytes.length) bytes.length).val⌉), ?_, ?_, ?_, ?_⟩
    · simp only [joinWriter_percentages, hp, List.map_map]
      apply List.map_congr_left
      intro i _
      exact hform i
    · exact (List.pairwise_lt_range _).map _ hmono
    · intro p hpm
      obtain ⟨i, _, rfl⟩ := List.mem_map.mp hpm
      have h100 : ⌈(ratioTimes100 bytes.length bytes.length).val⌉ = 100 := by
        rw [ratioTimes100_full hpos]
        simp
      rw [← h100]
      apply Int.ceil_mono
      exact ratioTimes100_mono hpos (Nat.min_le_right _ _)
    · rw [List.range_succ, List.map_append, List.map_singleton, List.getLast?_concat]
      have hlast : min ((bytes.length / c.KANKI_BUFSIZE_MAX + 1) * c.KANKI_BUFSIZE_MAX)
          bytes.length = bytes.length := by
        apply Nat.min_eq_right
        have := Nat.lt_div_mul_add (a := bytes.length) hmax
        rw [Nat.add_mul, Nat.one_mul]
        omega
      rw [hlast, ratioTimes100_full hpos]
      simp

/-- The statement of `transferFileStream_percentages` for three bytes read in
chunks of two. -/
theorem transferFileStream_percentages_witness :
    ∃ s, transferFileStream exampleConsts deferredWorld (dataEntry "/zone/coll" "fileA" 3)
        ⟨[1, 2, 3], false⟩ ⟨[], false, false, 0⟩ = some s ∧
      s.status = 0 ∧ (s.totalRead : Int) = (dataEntry "/zone/coll" "fileA" 3).objSize ∧
      s.percentages = (List.range ([1, 2, 3].length / exampleConsts.KANKI_BUFSIZE_MAX + 1)).map
        (fun i => percentage (min ((i + 1) * exampleConsts.KANKI_BUFSIZE_MAX) [1, 2, 3].length)
          (dataEntry "/zone/coll" "fileA" 3).objSize) ∧
      ∃ ps : List Int, s.percentages = ps.map some ∧
        List.Sorted (· ≤ ·) ps ∧ (∀ p ∈ ps, p ≤ 100) ∧ ps.getLast? = some 100 :=
  transferFileStream_percentages exampleConsts deferredWorld (dataEntry "/zone/coll" "fileA" 3)
    [1, 2, 3] (by decide) (by decide) (by decide) (by decide) (fun _ => rfl)

/-! ## Theorems on `run` -/

/-- Claim C6: when the base path of the root is a prefix of the full path of
an entry, the local path computed for the entry in the loop of `run` is
`destPath` followed by the full path without its first `basePath.length`
characters; dropping `destPath` from it and putting `basePath` in front gives
the full path back; and two such entries with the same local path have the
same full path. -/
theorem dstPathOf_roundtrip (destPath basePath fullPath : List Char)
    (h : basePath <+: fullPath) :
    dstPathOf destPath basePath fullPath = destPath ++ fullPath.drop basePath.length ∧
    basePath ++ (dstPathOf destPath basePath fullPath).drop destPath.length = fullPath ∧
    ∀ other, basePath <+: other →
      dstPathOf destPath basePath other = dstPathOf destPath basePath fullPath →
      other = fullPath := by
  obtain ⟨t, rfl⟩ := h
  refine ⟨rfl, by simp [dstPathOf], ?_⟩
  rintro other ⟨u, rfl⟩ heq
  simp [dstPathOf] at heq
  rw [heq]

/-- The statement of `dstPathOf_roundtrip` for `/zone/coll/fileA` downloaded
from `/zone` to `/dst`. -/
theorem dstPathOf_roundtrip_witness :
    dstPathOf "/dst".toList "/zone".toList "/zone/coll/fileA".toList =
      "/dst".toList ++ "/zone/coll/fileA".toList.drop "/zone".toList.length ∧
    "/zone".toList ++
      (dstPathOf "/dst".toList "/zone".toList "/zone/coll/fileA".toList).drop
        "/dst".toList.length = "/zone/coll/fileA".toList ∧
    ∀ other, "/zone".toList <+: other →
      dstPathOf "/dst".toList "/zone".toList other =
        dstPathOf "/dst".toList "/zone".toList "/zone/coll/fileA".toList →
      other = "/zone/coll/fileA".toList :=
  dstPathOf_roundtrip "/dst".toList "/zone".toList "/zone/coll/fileA".toList
    ⟨"/coll/fileA".toList, by decide⟩

/-- Claim C7 (the code does not do this): for a collection whose listing
fails, `run` signals the start, connects, logs in, calls `readColl`, joins the
pool and disconnects; no `reportError` is among its events. -/
theorem run_listing_failure_unreported :
    (run exampleConsts quietWorld emptyFs unreadableColl "/dst".toList true false).map
        Run.events =
      some [Event.progressMarquee StatusStr.initializing, Event.connect 0, Event.login 0,
        Event.readColl "/zone/coll".toList (-818000), Event.join, Event.disconnect] := by
  decide

end Kanki
